import Mathlib

/-!
# GoogleTranslateC: a shallow embedding of `cgtranslate.c`

The C library is modelled over explicit values:

* a byte (`unsigned char`) is a `Fin 256`;
* a block of memory reached through a pointer is the list of its bytes, and an
  access outside the block makes the modelled function return `none`
  (undefined behaviour in C);
* a `size_t` is a natural number reduced modulo `2 ^ 64`;
* the results of `malloc` / `realloc` and the behaviour of the HTTP transport
  are arguments of the functions that call them.
-/

namespace CGTranslate

/-! ## Bytes and memory blocks -/

/-- An `unsigned char`. -/
abbrev Byte := Fin 256

/-- A block of memory: the bytes from its first address on. -/
abbrev Buf := List Byte

/-- The modulus of `size_t` arithmetic (LP64). -/
def SIZE_MOD : Nat := 2 ^ 64

/-- The bytes of an ASCII C string literal, terminator excluded. -/
def lit (s : String) : List Byte := s.toList.map (fun ch => Fin.ofNat ch.toNat)

/-- The C statement `memcpy(buf + pos, src, src.length)`: defined only when the
    destination range lies inside the block. -/
def memcpy (buf : Buf) (pos : Nat) (src : List Byte) : Option Buf :=
  if pos + src.length ≤ buf.length then
    some (buf.take pos ++ src ++ buf.drop (pos + src.length))
  else none

/-- The C statement `buf[pos] = v`. -/
def store (buf : Buf) (pos : Nat) (v : Byte) : Option Buf :=
  memcpy buf pos [v]

/-! ## `urlencode` -/

/-- The table `hexchars[] = "0123456789ABCDEF"`. -/
def hexchars : List Byte := lit "0123456789ABCDEF"

/-- The lookup `hexchars[i]`; every index the encoder uses is below 16. -/
def hexchar (i : Nat) : Byte := hexchars.getD i 0

/-- The condition of the `else if` of `urlencode`: the byte is percent-encoded. -/
def needs_escape (c : Byte) (raw : Bool) : Bool :=
  (c.val < 48 && c.val != 45 && c.val != 46) ||
  (c.val < 65 && c.val > 57) ||
  (c.val > 90 && c.val < 97 && c.val != 95) ||
  (c.val > 122 && (!raw || c.val != 126))

/-- The bytes one iteration of the loop of `urlencode` stores at `to`. -/
def encode_byte (c : Byte) (raw : Bool) : List Byte :=
  if !raw && c.val == 32 then [43]
  else if needs_escape c raw then [37, hexchar (c.val >>> 4), hexchar (c.val &&& 15)]
  else [c]

/-- The loop `while (from < end)` of `urlencode`: `src` holds the bytes from
    `from` to `end`, `to_` is the offset of the write pointer `to` in `buf`. -/
def urlencode_loop (raw : Bool) : List Byte → Buf → Nat → Option (Buf × Nat)
  | [], buf, to_ => some (buf, to_)
  | c :: rest, buf, to_ =>
    if !raw && c.val == 32 then
      (store buf to_ 43).bind fun b => urlencode_loop raw rest b (to_ + 1)
    else if needs_escape c raw then
      (store buf to_ 37).bind fun b0 =>
      (store b0 (to_ + 1) (hexchar (c.val >>> 4))).bind fun b1 =>
      (store b1 (to_ + 2) (hexchar (c.val &&& 15))).bind fun b2 =>
      urlencode_loop raw rest b2 (to_ + 3)
    else
      (store buf to_ c).bind fun b => urlencode_loop raw rest b (to_ + 1)

/-- The C call `malloc(n)`: `none` when it returns `NULL`, else a block of
    exactly `n` bytes whose (indeterminate) contents are given by `fresh`. -/
def malloc (fresh : Option (Nat → Byte)) (n : Nat) : Option Buf :=
  fresh.map fun f => (List.range n).map f

/-- The destination `start` of `urlencode`: the block and the offset in it.
    `alloc = none` is the C `NULL`, for which `len * 3 + 1` bytes are
    allocated; the result of that `malloc` is not checked by the source, so a
    failed allocation leaves no destination to write to. -/
def urlencode_start (alloc : Option (Buf × Nat)) (fresh : Option (Nat → Byte)) (len : Nat) :
    Option (Buf × Nat) :=
  match alloc with
  | none => (malloc fresh ((len * 3 + 1) % SIZE_MOD)).map fun b => (b, 0)
  | some d => some d

/-- The call `urlencode(alloc, s, len, raw)`.  The result is the destination
    block after the call; the returned pointer `start` is the offset given by
    `urlencode_start`.  The source reads `s[0 .. len)`. -/
def urlencode (alloc : Option (Buf × Nat)) (fresh : Option (Nat → Byte)) (s : List Byte)
    (len : Nat) (raw : Bool) : Option Buf :=
  (urlencode_start alloc fresh len).bind fun dst =>
  if len ≤ s.length then
    (urlencode_loop raw (s.take len) dst.1 dst.2).bind fun r => store r.1 r.2 0
  else none

/-- The C string at offset `pos` of a block: the bytes before the first NUL at
    or after `pos`; `none` when the block holds no NUL from `pos` on. -/
def c_string (buf : Buf) (pos : Nat) : Option (List Byte) :=
  let tail := buf.drop pos
  if tail.all (fun b => b != 0) then none else some (tail.takeWhile fun b => b != 0)

/-- The text `urlencode` produces for the bytes `s`: what the loop stores,
    in order. -/
def urlencode_text (s : List Byte) (raw : Bool) : List Byte :=
  s.flatMap fun c => encode_byte c raw

/-! ### What the specification says of the encoder -/

/-- ASCII letter, as the specification words it. -/
def is_ascii_letter (c : Byte) : Bool :=
  (65 ≤ c.val && c.val ≤ 90) || (97 ≤ c.val && c.val ≤ 122)

/-- ASCII digit, as the specification words it. -/
def is_ascii_digit (c : Byte) : Bool := 48 ≤ c.val && c.val ≤ 57

/-- The unreserved set of the specification: alphanumerics, `-`, `.`, `_`, and
    `~` only in raw mode. -/
def spec_unreserved (c : Byte) (raw : Bool) : Bool :=
  is_ascii_letter c || is_ascii_digit c || c.val == 45 || c.val == 46 || c.val == 95 ||
    (raw && c.val == 126)

/-- The uppercase hexadecimal digit of a nibble. -/
def spec_upper_hex (n : Nat) : Byte :=
  if n < 10 then Fin.ofNat (48 + n) else Fin.ofNat (65 + (n - 10))

/-- The specification of what is emitted for one input byte. -/
def spec_encode_byte (c : Byte) (raw : Bool) : List Byte :=
  if !raw && c.val == 32 then [43]
  else if spec_unreserved c raw then [c]
  else [37, spec_upper_hex (c.val / 16), spec_upper_hex (c.val % 16)]

/-- The value of a hexadecimal digit, either case. -/
def spec_hex_value (b : Byte) : Option Nat :=
  if 48 ≤ b.val ∧ b.val ≤ 57 then some (b.val - 48)
  else if 65 ≤ b.val ∧ b.val ≤ 70 then some (b.val - 55)
  else if 97 ≤ b.val ∧ b.val ≤ 102 then some (b.val - 87)
  else none

/-- Standard percent-decoding, as the specification words it: `%XX` becomes the
    byte with that hexadecimal value, and `+` becomes a space unless `raw`. -/
def spec_urldecode (raw : Bool) : List Byte → List Byte
  | [] => []
  | c :: h :: l :: rest =>
    if c.val = 37 then
      match spec_hex_value h, spec_hex_value l with
      | some x, some y => Fin.ofNat (16 * x + y) :: spec_urldecode raw rest
      | _, _ => c :: spec_urldecode raw (h :: l :: rest)
    else if c.val = 43 ∧ raw = false then 32 :: spec_urldecode raw (h :: l :: rest)
    else c :: spec_urldecode raw (h :: l :: rest)
  | c :: rest =>
    if c.val = 43 ∧ raw = false then 32 :: spec_urldecode raw rest
    else c :: spec_urldecode raw rest

/-! ## The session -/

/-- The value of a pointer the session owns and frees by itself. -/
inductive Ptr where
  /-- The C `NULL`. -/
  | null
  /-- A live block with these bytes. -/
  | block (bytes : Buf)
  /-- The address of a block that has been passed to `free`. -/
  | dangling
  deriving DecidableEq, Repr

/-- The C call `free(p)` seen from the variable that keeps the address. -/
def Ptr.free : Ptr → Ptr
  | .null => .null
  | .block _ => .dangling
  | .dangling => .dangling

/-- The values the field `error_str` takes. -/
inductive ErrStr where
  /-- Not assigned yet. -/
  | unset
  /-- A string literal of the source. -/
  | literal (msg : String)
  /-- The result of `strerror(errnum)`; the source only passes `ENOMEM`, 12. -/
  | strerror (errnum : Nat)
  /-- The address held by `err_heap`. -/
  | err_heap
  /-- The result of `curl_easy_strerror(code)`. -/
  | curl (code : Nat)
  deriving DecidableEq, Repr

/-- The struct `cgtranslate_t` (the curl handle `ch` has no model).  The C
    names `to` and `from` are reserved words here, hence `to_` and `from_`. -/
structure cgtranslate_t where
  /-- The field `char to[8]`. -/
  to_ : Buf
  /-- The field `char from[8]`. -/
  from_ : Buf
  text_len : Nat
  /-- The memory `text` points to. -/
  text : Buf
  txt_heap : Option Buf
  cache_dir : Option Buf
  cookie_dir : Option Buf
  error_str : ErrStr
  err_heap : Option Buf
  /-- The response block; its length is the size really allocated. -/
  res : Option Buf
  res_len : Nat
  res_alloc : Nat
  clear_res : Ptr
  hdr_list : Option (List String)
  deriving DecidableEq, Repr

/-- The errno values of Linux the source uses. -/
def ENOMEM : Int := 12
/-- See `ENOMEM`. -/
def EINVAL : Int := 22
/-- See `ENOMEM`. -/
def EBADMSG : Int := 74

/-- The loop of `my_strndup`: the length of the string at `str`, cut at
    `max_len`. -/
def my_strndup_len (max_len : Nat) : Buf → Nat → Option Nat
  | [], _ => none
  | c :: rest, len =>
    if c = 0 then some len
    else if len + 1 ≥ max_len then some (len + 1)
    else my_strndup_len max_len rest (len + 1)

/-- The function `my_strndup(str, max_len)`: the outer `none` is undefined
    behaviour (the result of `malloc` is used unchecked), the inner one is the
    C `NULL`. -/
def my_strndup (fresh : Option (Nat → Byte)) (str : Buf) (max_len : Nat) :
    Option (Option Buf) :=
  if max_len = 0 then some none
  else
    (my_strndup_len max_len str 0).bind fun len =>
    (malloc fresh ((len + 1) % SIZE_MOD)).bind fun ret =>
    (memcpy ret 0 (str.take len)).bind fun r1 =>
    (store r1 len 0).map some

/-- The function `short_strlen(str)`: the number of bytes before the first
    NUL; `none` when the block holds no NUL. -/
def short_strlen : Buf → Option Nat
  | [] => none
  | c :: rest => if c = 0 then some 0 else (short_strlen rest).map (· + 1)

/-- The bytes `strncpy(dst, src, n)` stores: the string at `src` cut at `n`
    bytes and padded with NULs to `n` bytes. -/
def strncpy_bytes : Buf → Nat → Option (List Byte)
  | _, 0 => some []
  | [], _ + 1 => none
  | c :: rest, n + 1 =>
    if c = 0 then some (List.replicate (n + 1) 0)
    else (strncpy_bytes rest n).map (c :: ·)

/-- The C call `strncpy(dst, src, n)`. -/
def strncpy (dst : Buf) (src : Buf) (n : Nat) : Option Buf :=
  (strncpy_bytes src n).bind fun bytes => memcpy dst 0 bytes

/-- The function `cgtr_set_lang(cg, from, to)`; an argument `none` is the C
    `NULL`, `fresh` is the memory `malloc` hands out. -/
def cgtr_set_lang (fresh : Option (Nat → Byte)) (cg : cgtranslate_t)
    (from_ to_ : Option Buf) : Option (cgtranslate_t × Int) :=
  match to_ with
  | none =>
    let err_msg : Buf := lit "Target language cannot be NULL" ++ [0]
    (my_strndup fresh err_msg err_msg.length).map fun copy =>
      ({ cg with err_heap := copy, error_str := .err_heap }, -EINVAL)
  | some to_str =>
    (match from_ with
      | none => memcpy cg.from_ 0 (lit "auto" ++ [0])
      | some from_str =>
        (strncpy cg.from_ from_str (8 - 1)).bind fun f => store f (8 - 1) 0).bind fun new_from =>
    (strncpy cg.to_ to_str (8 - 1)).bind fun t =>
    (store t (8 - 1) 0).map fun new_to =>
      ({ cg with from_ := new_from, to_ := new_to }, 0)

/-! ## The response buffer -/

/-- The C call `realloc(old, n)`: `none` when it fails, else a block of `n`
    bytes that starts with the old contents. -/
def realloc (fresh : Option (Nat → Byte)) (old : Option Buf) (n : Nat) : Option Buf :=
  fresh.map fun f => ((old.getD []) ++ (List.range n).map f).take n

/-- The last four statements of `write_callback` (the copy of the chunk, the
    terminating NUL, the new length, the return), run on the session `cg1` that
    the growth step has left. -/
def write_callback_copy (data : Buf) (add_len new_len : Nat) (cg1 : cgtranslate_t) :
    Option (cgtranslate_t × Nat) :=
  cg1.res.bind fun res =>
  if add_len ≤ data.length then
    (memcpy res cg1.res_len (data.take add_len)).bind fun r1 =>
    (store r1 (cg1.res_len + add_len) 0).map fun r2 =>
      ({ cg1 with res := some r2, res_len := new_len }, add_len)
  else none

/-- The function `write_callback(data, size, nmemb, cg)`; `fresh` decides the
    call of `realloc`, if there is one.  The result is the session and the
    returned count. -/
def write_callback (fresh : Option (Nat → Byte)) (data : Buf) (size nmemb : Nat)
    (cg : cgtranslate_t) : Option (cgtranslate_t × Nat) :=
  let add_len := (size * nmemb) % SIZE_MOD
  let new_len := (cg.res_len + add_len) % SIZE_MOD
  if (new_len + 1) % SIZE_MOD ≥ cg.res_alloc then
    let res_alloc := (cg.res_alloc * 2 + 1) % SIZE_MOD
    match realloc fresh cg.res res_alloc with
    | none => some ({ cg with res_alloc := res_alloc }, 0)
    | some new_mem =>
      write_callback_copy data add_len new_len
        { cg with res_alloc := res_alloc, res := some new_mem }
  else write_callback_copy data add_len new_len cg

/-! ## The URL -/

/-- The loop `while (*url) url++;`: the offset of the first NUL at or after
    `pos`. -/
def skip_string (buf : Buf) (pos : Nat) : Option Nat :=
  (short_strlen (buf.drop pos)).map (pos + ·)

/-- The function `build_url(cg, url)`, `url` being the start of the block. -/
def build_url (cg : cgtranslate_t) (url : Buf) : Option Buf :=
  (memcpy url 0 ((lit "https://translate.google.com/m?sl=").take 34)).bind fun u1 =>
  (short_strlen cg.from_).bind fun from_len =>
  (urlencode (some (u1, 34)) none cg.from_ from_len false).bind fun u2 =>
  (skip_string u2 34).bind fun p2 =>
  (memcpy u2 p2 ((lit "&tl=").take 4)).bind fun u3 =>
  (short_strlen cg.to_).bind fun to_len =>
  (urlencode (some (u3, p2 + 4)) none cg.to_ to_len false).bind fun u4 =>
  (skip_string u4 (p2 + 4)).bind fun p4 =>
  (memcpy u4 p4 ((lit "&hl=en&q=").take 9)).bind fun u5 =>
  urlencode (some (u5, p4 + 9)) none cg.text cg.text_len false

/-! ## The extraction -/

/-- The marker `find[]` of `parse_response`. -/
def find : List Byte := lit "<div class=\"result-container\">"

/-- The offset of the first occurrence of `needle` in a list of bytes. -/
def find_sub (needle : List Byte) : List Byte → Option Nat
  | [] => if needle.isEmpty then some 0 else none
  | c :: rest =>
    if needle.isPrefixOf (c :: rest) then some 0
    else (find_sub needle rest).map (· + 1)

/-- The C call `strstr(hay, needle)` on a block: the outer `none` is a block
    without a NUL (not a string), the inner one is the C `NULL`; the search sees
    the bytes before the first NUL only. -/
def strstr (hay : Buf) (needle : List Byte) : Option (Option Nat) :=
  (c_string hay 0).map fun s => find_sub needle s

/-- How the loop `while (*p != '<')` of `parse_response` ends. -/
inductive Scan where
  /-- The byte `<` was met after `j` steps. -/
  | found (j : Nat)
  /-- The guard `i++ >= max` fired. -/
  | not_found
  /-- The loop read past the end of the block. -/
  | fault
  deriving DecidableEq, Repr

/-- The loop `while (*p != '<')` of `parse_response`: the list holds the
    bytes from `p` on. -/
def scan_tag (max : Nat) : List Byte → Nat → Nat → Scan
  | [], _, _ => .fault
  | c :: rest, i, j =>
    if c = 60 then .found j
    else if i ≥ max then .not_found
    else scan_tag max rest (i + 1) (j + 1)

/-- The function `parse_response(cg)`; `fresh` decides the `malloc` of the
    result. -/
def parse_response (fresh : Option (Nat → Byte)) (cg : cgtranslate_t) :
    Option (cgtranslate_t × Int) :=
  cg.res.bind fun res =>
  (strstr res find).bind fun found =>
  match found with
  | none =>
    some ({ cg with error_str := .literal "Cannot find translated result" }, -EBADMSG)
  | some k =>
    let p := k + find.length
    match scan_tag cg.res_len (res.drop p) p 0 with
    | .fault => none
    | .not_found =>
      some ({ cg with error_str := .literal "Cannot find translated result" }, -EBADMSG)
    | .found j =>
      (store res (p + j) 0).bind fun res1 =>
      match malloc fresh ((j + 1) % SIZE_MOD) with
      | none =>
        -- `free(cg->clear_res)` has run, the field keeps the stale address
        some ({ cg with res := some res1, clear_res := cg.clear_res.free,
                        error_str := .strerror 12 }, -ENOMEM)
      | some clear_res =>
        if p + (j + 1) ≤ res1.length then
          (memcpy clear_res 0 ((res1.drop p).take (j + 1))).map fun c =>
            ({ cg with res := some res1, clear_res := .block c }, 0)
        else none

/-! ## The execution -/

/-- One call of the write callback by the transport. -/
structure Call where
  data : Buf
  size : Nat
  nmemb : Nat
  /-- What `realloc` does if the callback calls it. -/
  fresh : Option (Nat → Byte)

/-- What the environment does during one `cgtr_execute`. -/
structure Env where
  /-- The `malloc` of the response block. -/
  res_mem : Option (Nat → Byte)
  /-- The `malloc` of the URL block. -/
  url_mem : Option (Nat → Byte)
  /-- The calls of the write callback made by `curl_easy_perform`, in order. -/
  calls : List Call
  /-- The code `curl_easy_perform` returns when no callback signalled a
      failure; 0 is `CURLE_OK`. -/
  cres : Nat
  /-- The `malloc` of the extracted result. -/
  clear_mem : Option (Nat → Byte)

/-- The header `ua_header`. -/
def ua_header : String :=
  "User-Agent: Mozilla/5.0 (S60; SymbOS; Opera Mobi/SYB-1103211396; U; es-LA; rv:1.9.1.6) Gecko/20091201 Firefox/3.5.6 Opera 11.00"

/-- The code `CURLE_WRITE_ERROR` of libcurl. -/
def CURLE_WRITE_ERROR : Nat := 23

/-- The transport `curl_easy_perform`: it hands the chunks to
    `write_callback` in order and, as libcurl documents, stops with
    `CURLE_WRITE_ERROR` at the first call that returns another count than
    `size * nmemb`.  The result is the session and the code returned. -/
def curl_easy_perform (cres : Nat) : List Call → cgtranslate_t → Option (cgtranslate_t × Nat)
  | [], cg => some (cg, cres)
  | c :: rest, cg =>
    (write_callback c.fresh c.data c.size c.nmemb cg).bind fun r =>
      if r.2 = c.size * c.nmemb then curl_easy_perform cres rest r.1
      else some (r.1, CURLE_WRITE_ERROR)

/-- The function `cgtr_execute(cg)` from the statement `cg->res_len = 0ul` on:
    `cg1` is the session with its response block allocated. -/
def cgtr_execute_request (env : Env) (cg1 : cgtranslate_t) : Option (cgtranslate_t × Int) :=
  let cg2 := { cg1 with res_len := 0 }
  match malloc env.url_mem ((cg2.text_len * 3 + 512) % SIZE_MOD) with
  | none => some ({ cg2 with error_str := .strerror 12 }, -ENOMEM)
  | some url =>
    (build_url cg2 url).bind fun _ =>
    let cg3 := { cg2 with hdr_list := some (cg2.hdr_list.getD [ua_header]) }
    (curl_easy_perform env.cres env.calls cg3).bind fun r =>
    if r.2 ≠ 0 then
      some ({ r.1 with error_str := .curl r.2 }, -EBADMSG)
    else parse_response env.clear_mem r.1

/-- The function `cgtr_execute(cg)` in the environment `env`: the lazy
    allocation of the response block, then `cgtr_execute_request`. -/
def cgtr_execute (env : Env) (cg : cgtranslate_t) : Option (cgtranslate_t × Int) :=
  match cg.res with
  | none =>
    match malloc env.res_mem 8192 with
    | none =>
      some ({ cg with res_alloc := 8192, res := none, error_str := .strerror 12 }, -ENOMEM)
    | some res => cgtr_execute_request env { cg with res_alloc := 8192, res := some res }
  | some _ => cgtr_execute_request env cg

/-- The function `cgtr_get_result(cg)`. -/
def cgtr_get_result (cg : cgtranslate_t) : Ptr := cg.clear_res

/-- The function `cgtr_detach_result(cg)`: the session afterwards and the
    pointer returned. -/
def cgtr_detach_result (cg : cgtranslate_t) : cgtranslate_t × Ptr :=
  ({ cg with clear_res := .null }, cg.clear_res)

/-- The URL of the specification for source language `f`, target language
    `t` and text `x`. -/
def spec_url (f t x : List Byte) : List Byte :=
  lit "https://translate.google.com/m?sl=" ++ urlencode_text f false ++ lit "&tl=" ++
    urlencode_text t false ++ lit "&hl=en&q=" ++ urlencode_text x false

/-! ## Creating and configuring a session -/

/-- The function `cgtr_init()` when its allocations succeed: `junk` is the
    indeterminate contents of the fresh struct, of which the source does not
    set `to`, `from`, `text`, `text_len` and `error_str`. -/
def cgtr_init (junk : cgtranslate_t) : cgtranslate_t :=
  { junk with cache_dir := none, cookie_dir := none, err_heap := none, txt_heap := none,
              res := none, res_len := 0, res_alloc := 0, hdr_list := none,
              clear_res := .null }

/-- The function `cgtr_set_text_ref_len(cg, text, len)`. -/
def cgtr_set_text_ref_len (cg : cgtranslate_t) (text : Buf) (len : Nat) :
    cgtranslate_t × Int :=
  ({ cg with text := text, text_len := len, txt_heap := none }, 0)

/-- The function `cgtr_set_text_ref(cg, text)`; `strlen` is not defined on a
    block without a NUL. -/
def cgtr_set_text_ref (cg : cgtranslate_t) (text : Buf) : Option (cgtranslate_t × Int) :=
  (short_strlen text).map fun len => cgtr_set_text_ref_len cg text len

/-- A fresh struct whose indeterminate bytes are all 255. -/
def junk_session : cgtranslate_t :=
  { to_ := List.replicate 8 255, from_ := List.replicate 8 255, text_len := 0, text := [],
    txt_heap := none, cache_dir := none, cookie_dir := none, error_str := .unset,
    err_heap := none, res := none, res_len := 0, res_alloc := 0, clear_res := .null,
    hdr_list := none }

/-- The session of `main.c` at its call of `cgtr_execute`: source `en`, target
    `ja`, text `Good morning` by reference. -/
def main_session : Option cgtranslate_t :=
  (cgtr_set_lang none (cgtr_init junk_session) (some (lit "en" ++ [0]))
      (some (lit "ja" ++ [0]))).bind fun r =>
    (cgtr_set_text_ref r.1 (lit "Good morning" ++ [0])).map fun r2 => r2.1

/-- The session right after the first lines of `cgtr_execute` on a session
    without a response block: a block of 8192 bytes, length 0. -/
def fresh_response (cg : cgtranslate_t) (f : Nat → Byte) : cgtranslate_t :=
  { cg with res_alloc := 8192, res := malloc (some f) 8192, res_len := 0 }

/-- A configured session: source `en`, target `ja`, no text, nothing
    allocated. -/
def en_ja_session : cgtranslate_t :=
  { junk_session with from_ := lit "en" ++ List.replicate 6 0,
                      to_ := lit "ja" ++ List.replicate 6 0 }

/-- A session that holds the extracted result `HELLO` and an allocated
    response block of 63 bytes with a stale length. -/
def hello_session : cgtranslate_t :=
  { en_ja_session with clear_res := .block (lit "HELLO" ++ [0]),
                       res := some (List.replicate 63 0), res_alloc := 63, res_len := 20 }

/-- The bytes `l[a : b]` of a list. -/
def slice (l : List Byte) (a b : Nat) : List Byte := (l.take b).drop a

/-- A session whose response block holds the given bytes, then a NUL and
    three stale bytes; `res_len` is the number of bytes given. -/
def session_with_response (body : List Byte) : cgtranslate_t :=
  { en_ja_session with res := some (body ++ [0, 60, 47, 62]), res_len := body.length,
                       res_alloc := body.length + 4 }

/-! ### What the specification says of the encoder's output alphabet -/

/-- A byte the encoded text may hold: ASCII letter, ASCII digit, `-`, `.`,
    `_`, `%`, `+` only when not raw, `~` only when raw. -/
def spec_output_byte (raw : Bool) (b : Byte) : Bool :=
  is_ascii_letter b || is_ascii_digit b || b.val == 45 || b.val == 46 || b.val == 95 ||
    b.val == 37 || (!raw && b.val == 43) || (raw && b.val == 126)

/-- A character from `0-9A-F`. -/
def spec_upper_hex_digit (b : Byte) : Bool :=
  (48 ≤ b.val && b.val ≤ 57) || (65 ≤ b.val && b.val ≤ 70)

/-- Every `%` of the text is immediately followed by two characters from
    `0-9A-F`. -/
def spec_percent_escapes (text : List Byte) : Prop :=
  ∀ i : Nat, text[i]? = some 37 →
    ∃ h l, text[i + 1]? = some h ∧ text[i + 2]? = some l ∧
      spec_upper_hex_digit h = true ∧ spec_upper_hex_digit l = true

/-! ### Fixtures for the response buffer and the execution -/

/-- The bytes a sequence of callback calls delivers, in order. -/
def delivered (calls : List Call) : List Byte :=
  calls.flatMap fun c => c.data.take (c.size * c.nmemb)

/-- A transfer that delivers `x<div class="result-container"><b>` and then
    fails with the code 56 (`CURLE_RECV_ERROR`); only the URL block is
    allocated. -/
def env_fails_after_marker : Env :=
  ⟨none, some fun _ => 2, [⟨lit "x<div class=\"result-container\"><b>", 1, 34, none⟩], 56, none⟩

/-- A transfer that delivers `x` and then fails with the code 56. -/
def env_fails_after_x : Env :=
  ⟨none, some fun _ => 2, [⟨lit "x", 1, 1, none⟩], 56, none⟩

/-- A successful transfer with a body of zero bytes: the write callback is
    never called. -/
def env_empty_body : Env :=
  ⟨none, some fun _ => 2, [], 0, some fun _ => 3⟩

set_option maxRecDepth 100000

/-! ## Lemmas on memory blocks -/

theorem memcpy_length {buf : Buf} {pos : Nat} {src : List Byte} {out : Buf}
    (h : memcpy buf pos src = some out) : out.length = buf.length := by
  unfold memcpy at h
  split at h
  · cases h
    simp
    omega
  · cases h

theorem take_append_len {α : Type} (p q : List α) (n : Nat) (h : p.length = n) :
    (p ++ q).take n = p := by
  subst h
  simp

theorem drop_append_len {α : Type} (p q : List α) (n k : Nat) (h : p.length = n) :
    (p ++ q).drop (n + k) = q.drop k := by
  subst h
  rw [← List.drop_drop]
  simp

theorem memcpy_append (buf : Buf) (pos : Nat) (a b : List Byte) :
    memcpy buf pos (a ++ b) =
      (memcpy buf pos a).bind fun b1 => memcpy b1 (pos + a.length) b := by
  unfold memcpy
  by_cases h1 : pos + a.length ≤ buf.length
  · have hp : (List.take pos buf ++ a).length = pos + a.length := by
      simp
      omega
    by_cases h2 : pos + a.length + b.length ≤ buf.length
    · have h3 : pos + (a ++ b).length ≤ buf.length := by simp; omega
      have h4 : pos + a.length + b.length ≤
          (List.take pos buf ++ a ++ List.drop (pos + a.length) buf).length := by
        simp; omega
      simp only [h1, h3, h4, if_true, Option.some_bind]
      congr 1
      rw [take_append_len _ _ _ hp, drop_append_len _ _ _ _ hp, List.drop_drop]
      simp [Nat.add_assoc, Nat.add_comm]
    · have h3 : ¬ pos + (a ++ b).length ≤ buf.length := by simp; omega
      have h4 : ¬ pos + a.length + b.length ≤
          (List.take pos buf ++ a ++ List.drop (pos + a.length) buf).length := by
        simp; omega
      simp only [h1, h3, h4, if_true, if_false, Option.some_bind]
  · have h3 : ¬ pos + (a ++ b).length ≤ buf.length := by simp; omega
    simp only [h1, h3, if_false, Option.none_bind]


theorem store_eq_memcpy (buf : Buf) (pos : Nat) (v : Byte) :
    store buf pos v = memcpy buf pos [v] := rfl

theorem urlencode_text_cons (c : Byte) (rest : List Byte) (raw : Bool) :
    urlencode_text (c :: rest) raw = encode_byte c raw ++ urlencode_text rest raw := by
  simp [urlencode_text]

theorem memcpy_three (buf : Buf) (pos : Nat) (x y z : Byte) (k : Buf → Option (Buf × Nat)) :
    ((store buf pos x).bind fun b0 => (store b0 (pos + 1) y).bind fun b1 =>
      (store b1 (pos + 2) z).bind k) = (memcpy buf pos [x, y, z]).bind k := by
  have e : ([x, y, z] : List Byte) = [x] ++ ([y] ++ [z]) := rfl
  simp only [e, memcpy_append, store_eq_memcpy, List.length_singleton, Option.bind_assoc,
    Nat.add_assoc]

/-- The loop of `urlencode` stores the encoded text at the write pointer and
    advances the pointer by its length; it leaves the block when and only when
    the text does not fit. -/
theorem urlencode_loop_eq (raw : Bool) (src : List Byte) :
    ∀ (buf : Buf) (pos : Nat), pos ≤ buf.length → urlencode_loop raw src buf pos =
      (memcpy buf pos (urlencode_text src raw)).map fun b =>
        (b, pos + (urlencode_text src raw).length) := by
  induction src with
  | nil =>
    intro buf pos hpos
    simp [urlencode_loop, urlencode_text, memcpy, hpos]
  | cons c rest ih =>
    intro buf pos hpos
    have step : ∀ e : List Byte,
        ((memcpy buf pos e).bind fun b => urlencode_loop raw rest b (pos + e.length)) =
        ((memcpy buf pos e).bind fun b1 =>
          memcpy b1 (pos + e.length) (urlencode_text rest raw)).map fun b =>
            (b, pos + (e ++ urlencode_text rest raw).length) := by
      intro e
      cases hm : memcpy buf pos e with
      | none => simp
      | some b1 =>
        have hl := memcpy_length hm
        have hle : pos + e.length ≤ b1.length := by
          unfold memcpy at hm
          split at hm
          · omega
          · cases hm
        simp only [Option.some_bind, ih b1 _ hle, List.length_append, Nat.add_assoc]
    rw [urlencode_text_cons, memcpy_append, ← step]
    simp only [urlencode_loop, encode_byte]
    split
    · rfl
    · split
      · rw [memcpy_three]
        rfl
      · rfl


theorem memcpy_fits (buf : Buf) (pos : Nat) (src : List Byte)
    (h : pos + src.length ≤ buf.length) :
    memcpy buf pos src = some (buf.take pos ++ src ++ buf.drop (pos + src.length)) := by
  simp [memcpy, h]

/-- With a destination inside the block, `urlencode` is one copy of the
    encoded text and its terminator. -/
theorem urlencode_eq (alloc : Option (Buf × Nat)) (fresh : Option (Nat → Byte))
    (s : List Byte) (len : Nat) (raw : Bool) (buf : Buf) (pos : Nat)
    (hdst : urlencode_start alloc fresh len = some (buf, pos)) (hpos : pos ≤ buf.length)
    (hlen : len ≤ s.length) :
    urlencode alloc fresh s len raw = memcpy buf pos (urlencode_text (s.take len) raw ++ [0]) := by
  simp only [urlencode, hdst, Option.some_bind, hlen, if_true, urlencode_loop_eq raw _ buf pos hpos,
    memcpy_append, store_eq_memcpy]
  cases memcpy buf pos (urlencode_text (List.take len s) raw) <;> simp

theorem encode_byte_length_le (c : Byte) (raw : Bool) : (encode_byte c raw).length ≤ 3 := by
  revert c raw
  decide

theorem encode_byte_nonzero (c : Byte) (raw : Bool) :
    (encode_byte c raw).all (fun b => b != 0) = true := by
  revert c raw
  decide

theorem encode_byte_eq_spec (c : Byte) (raw : Bool) :
    encode_byte c raw = spec_encode_byte c raw := by
  revert c raw
  decide

theorem urlencode_text_length_le (s : List Byte) (raw : Bool) :
    (urlencode_text s raw).length ≤ 3 * s.length := by
  induction s with
  | nil => simp [urlencode_text]
  | cons c rest ih =>
    rw [urlencode_text_cons, List.length_append, List.length_cons]
    have := encode_byte_length_le c raw
    omega

theorem urlencode_text_nonzero (s : List Byte) (raw : Bool) :
    (urlencode_text s raw).all (fun b => b != 0) = true := by
  induction s with
  | nil => simp [urlencode_text]
  | cons c rest ih =>
    rw [urlencode_text_cons, List.all_append, ih, encode_byte_nonzero]
    rfl

theorem urlencode_text_eq_spec (s : List Byte) (raw : Bool) :
    urlencode_text s raw = s.flatMap fun c => spec_encode_byte c raw := by
  simp only [urlencode_text, encode_byte_eq_spec]

theorem takeWhile_nonzero (t q : List Byte) (h : t.all (fun b => b != 0) = true) :
    (t ++ 0 :: q).takeWhile (fun b => b != 0) = t := by
  induction t with
  | nil => simp
  | cons a t ih =>
    simp only [List.all_cons, Bool.and_eq_true] at h
    simp [List.takeWhile_cons, h.1, ih h.2]

/-- Reading the C string that starts where a NUL-free text was stored, with a
    NUL after it, gives that text. -/
theorem c_string_at (p t q : List Byte) (n : Nat) (hn : p.length = n)
    (h : t.all (fun b => b != 0) = true) :
    c_string (p ++ t ++ 0 :: q) n = some t := by
  subst hn
  have hd : List.drop p.length (p ++ t ++ 0 :: q) = t ++ 0 :: q := by
    rw [List.append_assoc]
    simp
  simp only [c_string, hd, takeWhile_nonzero t q h]
  simp

/-- The closed form of a call of `urlencode` with room for the worst case. -/
theorem urlencode_fits (alloc : Option (Buf × Nat)) (fresh : Option (Nat → Byte))
    (s : List Byte) (raw : Bool) (buf : Buf) (pos : Nat)
    (hdst : urlencode_start alloc fresh s.length = some (buf, pos))
    (hroom : pos + (3 * s.length + 1) ≤ buf.length) :
    urlencode alloc fresh s s.length raw =
      some (buf.take pos ++ urlencode_text s raw ++
        0 :: buf.drop (pos + ((urlencode_text s raw).length + 1))) := by
  have hl := urlencode_text_length_le s raw
  rw [urlencode_eq alloc fresh s s.length raw buf pos hdst (by omega) (Nat.le_refl _),
    List.take_length, memcpy_fits _ _ _ (by simp; omega)]
  simp


theorem spec_urldecode_plain (raw : Bool) (c : Byte) (t : List Byte) (h : c.val ≠ 37) :
    spec_urldecode raw (c :: t) =
      (if c.val = 43 ∧ raw = false then 32 else c) :: spec_urldecode raw t := by
  match t with
  | [] => simp only [spec_urldecode]; split <;> rfl
  | [a] => simp only [spec_urldecode]; split <;> rfl
  | a :: b :: r => simp only [spec_urldecode, h, if_false]; split <;> rfl

theorem spec_urldecode_escape (raw : Bool) (h l : Byte) (x y : Nat) (t : List Byte)
    (hx : spec_hex_value h = some x) (hy : spec_hex_value l = some y) :
    spec_urldecode raw (37 :: h :: l :: t) = Fin.ofNat (16 * x + y) :: spec_urldecode raw t := by
  have h37 : ((37 : Byte) : Nat) = 37 := rfl
  simp only [spec_urldecode, h37, if_true, hx, hy]

theorem hexchar_value (c : Byte) :
    spec_hex_value (hexchar (c.val >>> 4)) = some (c.val / 16) ∧
    spec_hex_value (hexchar (c.val &&& 15)) = some (c.val % 16) ∧
    (Fin.ofNat (16 * (c.val / 16) + c.val % 16) : Byte) = c := by
  revert c
  decide

theorem encode_byte_cases (c : Byte) (raw : Bool) :
    (encode_byte c raw = [43] ∧ raw = false ∧ c = 32) ∨
    (encode_byte c raw = [c] ∧ c.val ≠ 37 ∧ ¬ (c.val = 43 ∧ raw = false)) ∨
    encode_byte c raw = [37, hexchar (c.val >>> 4), hexchar (c.val &&& 15)] := by
  revert c raw
  decide

theorem spec_urldecode_encode_byte (c : Byte) (raw : Bool) (t : List Byte) :
    spec_urldecode raw (encode_byte c raw ++ t) = c :: spec_urldecode raw t := by
  rcases encode_byte_cases c raw with ⟨h, hr, hc⟩ | ⟨h, h37, h43⟩ | h
  · rw [h, List.singleton_append, spec_urldecode_plain raw 43 t (by decide), hr, hc]
    rfl
  · rw [h, List.singleton_append, spec_urldecode_plain raw c t h37, if_neg h43]
  · obtain ⟨hx, hy, hc⟩ := hexchar_value c
    rw [h]
    show spec_urldecode raw (37 :: hexchar (c.val >>> 4) :: hexchar (c.val &&& 15) :: t) = _
    rw [spec_urldecode_escape raw _ _ _ _ t hx hy, hc]

/-- Percent-decoding the encoded text gives the input back. -/
theorem spec_urldecode_urlencode_text (s : List Byte) (raw : Bool) :
    spec_urldecode raw (urlencode_text s raw) = s := by
  induction s with
  | nil => rfl
  | cons c rest ih => rw [urlencode_text_cons, spec_urldecode_encode_byte, ih]

/-! ## The encoder: round trip, output and bound -/

/-- C1: for every byte sequence `s` and both modes, with a destination that has
    room for the worst case (`3 * len + 1` bytes, supplied by the caller or
    allocated by the function), `urlencode` returns a C string whose standard
    percent-decoding (`%XX` to the byte, `+` to a space unless raw) is `s`. -/
theorem urlencode_roundtrip (alloc : Option (Buf × Nat)) (fresh : Option (Nat → Byte))
    (s : List Byte) (raw : Bool) (buf : Buf) (pos : Nat)
    (hdst : urlencode_start alloc fresh s.length = some (buf, pos))
    (hroom : pos + (3 * s.length + 1) ≤ buf.length) :
    ∃ out text, urlencode alloc fresh s s.length raw = some out ∧
      c_string out pos = some text ∧ spec_urldecode raw text = s := by
  refine ⟨_, urlencode_text s raw, urlencode_fits alloc fresh s raw buf pos hdst hroom, ?_,
    spec_urldecode_urlencode_text s raw⟩
  exact c_string_at _ _ _ pos (by simp; omega) (urlencode_text_nonzero s raw)

/-- Witness of C1: the bytes `a b/~%+` with a NUL and a byte 255, in non-raw
    mode, into a block the function allocates itself. -/
theorem urlencode_roundtrip_witness :
    urlencode_start none (some fun _ => 7) [97, 32, 98, 47, 126, 37, 43, 0, 255].length =
        some ((List.range 28).map fun _ => 7, 0) ∧
    0 + (3 * [97, 32, 98, 47, 126, 37, 43, 0, 255].length + 1) ≤
        ((List.range 28).map fun _ => (7 : Byte)).length ∧
    ∃ out text, urlencode none (some fun _ => 7) [97, 32, 98, 47, 126, 37, 43, 0, 255]
        [97, 32, 98, 47, 126, 37, 43, 0, 255].length false = some out ∧
      c_string out 0 = some text ∧
      spec_urldecode false text = [97, 32, 98, 47, 126, 37, 43, 0, 255] :=
  ⟨by decide, by decide,
    urlencode_roundtrip none (some fun _ => 7) [97, 32, 98, 47, 126, 37, 43, 0, 255] false
      ((List.range 28).map fun _ => 7) 0 (by decide) (by decide)⟩

/-- C2: for every byte sequence `s` and flag `raw`, `urlencode` stores at its
    destination the in-order concatenation, over the bytes `c` of `s`, of what
    the specification gives for `c` (`+` for a space unless raw, `c` itself when
    unreserved, else `%` and two uppercase hexadecimal digits), then a NUL, and
    leaves the rest of the block as it was. -/
theorem urlencode_output (alloc : Option (Buf × Nat)) (fresh : Option (Nat → Byte))
    (s : List Byte) (raw : Bool) (buf : Buf) (pos : Nat)
    (hdst : urlencode_start alloc fresh s.length = some (buf, pos))
    (hroom : pos + (3 * s.length + 1) ≤ buf.length) :
    urlencode alloc fresh s s.length raw =
      some (buf.take pos ++ (s.flatMap fun c => spec_encode_byte c raw) ++
        0 :: buf.drop (pos + ((s.flatMap fun c => spec_encode_byte c raw).length + 1))) := by
  rw [← urlencode_text_eq_spec]
  exact urlencode_fits alloc fresh s raw buf pos hdst hroom

/-- Witness of C2: `a ~` in raw mode at offset 2 of a caller's 12-byte block. -/
theorem urlencode_output_witness :
    urlencode_start (some (List.replicate 12 9, 2)) none [97, 32, 126].length =
        some (List.replicate 12 9, 2) ∧
    2 + (3 * [97, 32, 126].length + 1) ≤ (List.replicate 12 (9 : Byte)).length ∧
    urlencode (some (List.replicate 12 9, 2)) none [97, 32, 126] [97, 32, 126].length true =
      some ((List.replicate 12 (9 : Byte)).take 2 ++
        ([97, 32, 126].flatMap fun c => spec_encode_byte c true) ++
        0 :: (List.replicate 12 (9 : Byte)).drop
          (2 + (([97, 32, 126].flatMap fun c => spec_encode_byte c true).length + 1))) :=
  ⟨rfl, by decide,
    urlencode_output (some (List.replicate 12 9, 2)) none [97, 32, 126] true
      (List.replicate 12 9) 2 rfl (by decide)⟩

/-- C3: for every byte sequence of length `n` and both modes, the text
    `urlencode` produces has at most `3 * n` bytes, and the call changes no byte
    outside the `3 * n + 1` bytes that start at its destination: it succeeds in
    any block with that much room and leaves the bytes before and after that
    window as they were. -/
theorem urlencode_bound (alloc : Option (Buf × Nat)) (fresh : Option (Nat → Byte))
    (s : List Byte) (raw : Bool) (buf : Buf) (pos : Nat)
    (hdst : urlencode_start alloc fresh s.length = some (buf, pos))
    (hroom : pos + (3 * s.length + 1) ≤ buf.length) :
    ∃ out text, urlencode alloc fresh s s.length raw = some out ∧
      c_string out pos = some text ∧ text.length ≤ 3 * s.length ∧
      out.length = buf.length ∧ out.take pos = buf.take pos ∧
      out.drop (pos + (3 * s.length + 1)) = buf.drop (pos + (3 * s.length + 1)) := by
  have hl := urlencode_text_length_le s raw
  have hp : (List.take pos buf).length = pos := by simp; omega
  refine ⟨_, urlencode_text s raw, urlencode_fits alloc fresh s raw buf pos hdst hroom,
    c_string_at _ _ _ pos hp (urlencode_text_nonzero s raw), hl, ?_, ?_, ?_⟩
  · simp
    omega
  · rw [List.append_assoc, take_append_len _ _ _ hp]
  · have e : pos + (3 * s.length + 1) = (pos + ((urlencode_text s raw).length + 1)) +
        (3 * s.length - (urlencode_text s raw).length) := by omega
    have hq : (List.take pos buf ++ urlencode_text s raw ++ [0]).length =
        pos + ((urlencode_text s raw).length + 1) := by simp; omega
    have e2 : List.take pos buf ++ urlencode_text s raw ++
        0 :: List.drop (pos + ((urlencode_text s raw).length + 1)) buf =
        (List.take pos buf ++ urlencode_text s raw ++ [0]) ++
          List.drop (pos + ((urlencode_text s raw).length + 1)) buf := by simp
    rw [e2, e, drop_append_len _ _ _ _ hq, List.drop_drop]

/-- Witness of C3: three bytes that all expand, into a caller's block of
    exactly `3 * 3 + 1` bytes. -/
theorem urlencode_bound_witness :
    urlencode_start (some (List.replicate 10 1, 0)) none [0, 255, 37].length =
        some (List.replicate 10 1, 0) ∧
    0 + (3 * [0, 255, 37].length + 1) ≤ (List.replicate 10 (1 : Byte)).length ∧
    ∃ out text, urlencode (some (List.replicate 10 1, 0)) none [0, 255, 37]
        [0, 255, 37].length false = some out ∧
      c_string out 0 = some text ∧ text.length ≤ 3 * [0, 255, 37].length ∧
      out.length = (List.replicate 10 (1 : Byte)).length ∧
      out.take 0 = (List.replicate 10 (1 : Byte)).take 0 ∧
      out.drop (0 + (3 * [0, 255, 37].length + 1)) =
        (List.replicate 10 (1 : Byte)).drop (0 + (3 * [0, 255, 37].length + 1)) :=
  ⟨rfl, by decide,
    urlencode_bound (some (List.replicate 10 1, 0)) none [0, 255, 37] false
      (List.replicate 10 1) 0 rfl (by decide)⟩

/-! ## Lemmas for `build_url` -/

theorem short_strlen_at (t q : List Byte) (h : t.all (fun b => b != 0) = true) :
    short_strlen (t ++ 0 :: q) = some t.length := by
  induction t with
  | nil => simp [short_strlen]
  | cons a t ih =>
    simp only [List.all_cons, Bool.and_eq_true, bne_iff_ne, ne_eq] at h
    rw [List.cons_append, short_strlen, if_neg h.1, ih h.2]
    rfl

theorem memcpy_start (url : Buf) (S : List Byte) (b : Buf) (h : memcpy url 0 S = some b) :
    b = S ++ url.drop S.length ∧ S.length ≤ url.length ∧ b.length = url.length := by
  have hl := memcpy_length h
  unfold memcpy at h
  split at h
  · cases h
    refine ⟨by simp, by omega, hl⟩
  · cases h

theorem memcpy_byte_twice (buf : Buf) (pos : Nat) (z c : Byte) :
    ((memcpy buf pos [z]).bind fun b => memcpy b pos [c]) = memcpy buf pos [c] := by
  by_cases h : pos + 1 ≤ buf.length
  · have hp : (List.take pos buf).length = pos := by simp; omega
    have e : List.take pos buf ++ [z] ++ List.drop (pos + 1) buf =
        List.take pos buf ++ ([z] ++ List.drop (pos + 1) buf) := by simp
    have hq : (List.take pos buf ++ [z]).length = pos + 1 := by simp; omega
    have hd := drop_append_len (List.take pos buf ++ [z]) (List.drop (pos + 1) buf) (pos + 1) 0 hq
    rw [Nat.add_zero, List.drop_zero] at hd
    rw [memcpy_fits buf pos [z] (by simpa using h), Option.some_bind, memcpy_fits _ pos [c]
      (by simp; omega), memcpy_fits buf pos [c] (by simpa using h)]
    simp only [List.length_singleton]
    rw [hd, e, take_append_len _ _ _ hp]
  · simp [memcpy, h]

/-- A copy that starts on the terminator of an earlier copy replaces it. -/
theorem memcpy_over_nul (buf : Buf) (pos : Nat) (a : List Byte) (z c0 : Byte) (c : List Byte) :
    ((memcpy buf pos (a ++ [z])).bind fun b => memcpy b (pos + a.length) (c0 :: c)) =
      memcpy buf pos (a ++ c0 :: c) := by
  have e : c0 :: c = [c0] ++ c := rfl
  rw [memcpy_append buf pos a [z], memcpy_append buf pos a (c0 :: c), Option.bind_assoc]
  congr 1
  funext b1
  rw [e]
  simp only [memcpy_append, ← Option.bind_assoc, memcpy_byte_twice]

theorem build_url_encode_step (url : Buf) (S : List Byte) (b : Buf) (n : Nat) (src : Buf)
    (len : Nat) (h : memcpy url 0 S = some b) (hn : S.length = n) (hlen : len ≤ src.length) :
    urlencode (some (b, n)) none src len false =
      memcpy url 0 (S ++ (urlencode_text (src.take len) false ++ [0])) := by
  subst hn
  obtain ⟨_, h1, h2⟩ := memcpy_start url S b h
  rw [urlencode_eq (some (b, S.length)) none src len false b S.length rfl (by omega) hlen,
    memcpy_append url 0 S, h, Option.some_bind, Nat.zero_add]

theorem build_url_skip_step (url : Buf) (S t : List Byte) (b : Buf) (n : Nat)
    (h : memcpy url 0 (S ++ (t ++ [0])) = some b) (hn : S.length = n)
    (ht : t.all (fun b => b != 0) = true) :
    skip_string b n = some (n + t.length) := by
  subst hn
  obtain ⟨h0, _, _⟩ := memcpy_start url _ b h
  have e : b = S ++ (t ++ 0 :: url.drop (S ++ (t ++ [0])).length) := by
    rw [h0]
    simp
  rw [skip_string, e, List.drop_left, short_strlen_at _ _ ht]
  rfl

theorem build_url_literal_step (url : Buf) (S t : List Byte) (b : Buf) (n : Nat) (c0 : Byte)
    (c : List Byte) (h : memcpy url 0 (S ++ (t ++ [0])) = some b) (hn : S.length = n) :
    memcpy b (n + t.length) (c0 :: c) = memcpy url 0 (S ++ t ++ c0 :: c) := by
  subst hn
  have := memcpy_over_nul url 0 (S ++ t) 0 c0 c
  rw [List.append_assoc, h, Option.some_bind, Nat.zero_add, List.length_append] at this
  rw [this, List.append_assoc]

theorem take_string (t q : List Byte) : (t ++ 0 :: q).take t.length = t := by
  simp

/-- The closed form of `build_url` in a block with room for the URL. -/
theorem build_url_closed (cg : cgtranslate_t) (url : Buf) (f fr t tr : List Byte)
    (hfrom : cg.from_ = f ++ 0 :: fr) (hf : f.all (fun b => b != 0) = true)
    (hto : cg.to_ = t ++ 0 :: tr) (ht : t.all (fun b => b != 0) = true)
    (htext : cg.text_len ≤ cg.text.length)
    (hroom : (spec_url f t (cg.text.take cg.text_len)).length + 1 ≤ url.length) :
    build_url cg url = some (spec_url f t (cg.text.take cg.text_len) ++
      0 :: url.drop ((spec_url f t (cg.text.take cg.text_len)).length + 1)) := by
  have hP : (lit "https://translate.google.com/m?sl=").take 34 =
      lit "https://translate.google.com/m?sl=" := by decide
  have hPl : (lit "https://translate.google.com/m?sl=").length = 34 := by decide
  have hA : (lit "&tl=").take 4 = 38 :: lit "tl=" := by decide
  have hA2 : lit "&tl=" = 38 :: lit "tl=" := by decide
  have hAl : (lit "tl=").length = 3 := by decide
  have hH : (lit "&hl=en&q=").take 9 = 38 :: lit "hl=en&q=" := by decide
  have hH2 : lit "&hl=en&q=" = 38 :: lit "hl=en&q=" := by decide
  have hHl : (lit "hl=en&q=").length = 8 := by decide
  simp only [spec_url, hA2, hH2] at hroom ⊢
  generalize hX : urlencode_text (cg.text.take cg.text_len) false = X at *
  generalize hPd : lit "https://translate.google.com/m?sl=" = P at *
  generalize hAd : lit "tl=" = A at *
  generalize hHd : lit "hl=en&q=" = H at *
  have hFl := urlencode_text_length_le f false
  have hTl := urlencode_text_length_le t false
  have hroom2 : P.length + (urlencode_text f false).length + (1 + A.length) +
      (urlencode_text t false).length + (1 + H.length) + X.length + 1 ≤ url.length := by
    simp only [List.length_append, List.length_cons] at hroom
    omega
  -- the prefix
  obtain ⟨u1, h1⟩ : ∃ u1, memcpy url 0 P = some u1 :=
    ⟨_, memcpy_fits url 0 P (by omega)⟩
  -- the source language
  have hsf : short_strlen cg.from_ = some f.length := by rw [hfrom, short_strlen_at f fr hf]
  have htf : cg.from_.take f.length = f := by rw [hfrom, take_string]
  have hlf : f.length ≤ cg.from_.length := by rw [hfrom]; simp
  obtain ⟨u2, h2⟩ : ∃ u2, memcpy url 0 (P ++ (urlencode_text f false ++ [0])) = some u2 :=
    ⟨_, memcpy_fits url 0 _ (by simp; omega)⟩
  have e2 := build_url_encode_step url P u1 34 cg.from_ f.length h1 hPl hlf
  rw [htf, h2] at e2
  have s2 := build_url_skip_step url P _ u2 34 h2 hPl (urlencode_text_nonzero f false)
  -- the separator and the target language
  obtain ⟨u3, h3⟩ : ∃ u3, memcpy url 0 (P ++ urlencode_text f false ++ 38 :: A) = some u3 :=
    ⟨_, memcpy_fits url 0 _ (by simp; omega)⟩
  have e3 := build_url_literal_step url P _ u2 34 38 A h2 hPl
  rw [h3] at e3
  have hst : short_strlen cg.to_ = some t.length := by rw [hto, short_strlen_at t tr ht]
  have htt : cg.to_.take t.length = t := by rw [hto, take_string]
  have hlt : t.length ≤ cg.to_.length := by rw [hto]; simp
  have hS3 : (P ++ urlencode_text f false ++ 38 :: A).length =
      34 + (urlencode_text f false).length + 4 := by
    simp only [List.length_append, List.length_cons, hPl, hAl]
  obtain ⟨u4, h4⟩ : ∃ u4, memcpy url 0 (P ++ urlencode_text f false ++ 38 :: A ++
      (urlencode_text t false ++ [0])) = some u4 :=
    ⟨_, memcpy_fits url 0 _ (by simp; omega)⟩
  have e4 := build_url_encode_step url _ u3 _ cg.to_ t.length h3 hS3 hlt
  rw [htt, h4] at e4
  have s4 := build_url_skip_step url _ _ u4 _ h4 hS3 (urlencode_text_nonzero t false)
  -- the last separator and the text
  obtain ⟨u5, h5⟩ : ∃ u5, memcpy url 0 (P ++ urlencode_text f false ++ 38 :: A ++
      urlencode_text t false ++ 38 :: H) = some u5 :=
    ⟨_, memcpy_fits url 0 _ (by simp; omega)⟩
  have e5 := build_url_literal_step url _ _ u4 _ 38 H h4 hS3
  rw [h5] at e5
  have hS5 : (P ++ urlencode_text f false ++ 38 :: A ++ urlencode_text t false ++
      38 :: H).length = 34 + (urlencode_text f false).length + 4 +
        (urlencode_text t false).length + 9 := by
    simp only [List.length_append, List.length_cons, hPl, hAl, hHl]
  have e6 := build_url_encode_step url _ u5 _ cg.text cg.text_len h5 hS5 htext
  rw [hX, memcpy_fits url 0 _ (by simp; omega)] at e6
  simp only [build_url, hP, hA, hH, hPd, hAd, hHd, h1, hsf, e2, s2, e3, hst, e4, s4, e5, e6,
    Option.some_bind]
  simp [Nat.add_assoc]

/-! ## The URL builder -/

/-- C4: for every session whose language fields hold the NUL-free strings `f`
    and `t` followed by a NUL, and whose text is the first `text_len` bytes at
    `text`, `build_url` writes into a block with room for them exactly the bytes
    `https://translate.google.com/m?sl=`, the encoding of `f`, `&tl=`, the
    encoding of `t`, `&hl=en&q=`, the encoding of the text (all non-raw), and
    a NUL, and changes nothing after that. -/
theorem build_url_output (cg : cgtranslate_t) (url : Buf) (f fr t tr : List Byte)
    (hfrom : cg.from_ = f ++ 0 :: fr) (hf : f.all (fun b => b != 0) = true)
    (hto : cg.to_ = t ++ 0 :: tr) (ht : t.all (fun b => b != 0) = true)
    (htext : cg.text_len ≤ cg.text.length)
    (hroom : (spec_url f t (cg.text.take cg.text_len)).length + 1 ≤ url.length) :
    build_url cg url = some (spec_url f t (cg.text.take cg.text_len) ++
      0 :: url.drop ((spec_url f t (cg.text.take cg.text_len)).length + 1)) :=
  build_url_closed cg url f fr t tr hfrom hf hto ht htext hroom

/-- Witness of C4: the session of `main.c` (`en`, `ja`, `Good morning`) and the
    block of `12 * 3 + 512` bytes `cgtr_execute` allocates; the URL is
    `https://translate.google.com/m?sl=en&tl=ja&hl=en&q=Good+morning`. -/
theorem build_url_output_witness :
    ∃ cg, main_session = some cg ∧
      cg.from_ = lit "en" ++ 0 :: List.replicate 5 0 ∧
      cg.to_ = lit "ja" ++ 0 :: List.replicate 5 0 ∧
      cg.text_len ≤ cg.text.length ∧
      cg.text.take cg.text_len = lit "Good morning" ∧
      build_url cg (List.replicate (12 * 3 + 512) 7) =
        some (lit "https://translate.google.com/m?sl=en&tl=ja&hl=en&q=Good+morning" ++
          0 :: List.replicate 484 7) :=
  ⟨_, rfl, by decide, by decide, by decide, by decide,
    (build_url_output _ (List.replicate (12 * 3 + 512) 7) (lit "en") (List.replicate 5 0)
      (lit "ja") (List.replicate 5 0) (by decide) (by decide) (by decide) (by decide)
      (by decide) (by decide)).trans (by decide)⟩

/-! ## Lemmas on the response buffer -/

theorem memcpy_none (buf : Buf) (pos : Nat) (src : List Byte)
    (h : buf.length < pos + src.length) : memcpy buf pos src = none := by
  simp [memcpy, h]

theorem realloc_length (f : Nat → Byte) (old : Option Buf) (n : Nat) :
    ∃ b, realloc (some f) old n = some b ∧ b.length = n := by
  refine ⟨_, rfl, ?_⟩
  simp

theorem malloc_length (f : Nat → Byte) (n : Nat) :
    ∃ b, malloc (some f) n = some b ∧ b.length = n := by
  refine ⟨_, rfl, ?_⟩
  simp

/-- The copy step succeeds when chunk and terminator fit into the block, and
    keeps the size of the block. -/
theorem write_callback_copy_fits (data : Buf) (add_len new_len : Nat) (cg1 : cgtranslate_t)
    (res : Buf) (hres : cg1.res = some res) (hdata : add_len ≤ data.length)
    (hfit : cg1.res_len + add_len + 1 ≤ res.length) :
    write_callback_copy data add_len new_len cg1 =
      some ({ cg1 with
                res := some (res.take cg1.res_len ++ data.take add_len ++
                  0 :: res.drop (cg1.res_len + add_len + 1)),
                res_len := new_len }, add_len) := by
  have hl : (data.take add_len).length = add_len := by simp; omega
  have hc : memcpy res cg1.res_len (data.take add_len ++ [0]) = _ :=
    memcpy_fits res cg1.res_len _ (by simp; omega)
  rw [memcpy_append, hl] at hc
  simp only [write_callback_copy, hres, Option.some_bind, hdata, if_true, store_eq_memcpy]
  cases hm : memcpy res cg1.res_len (List.take add_len data) with
  | none => rw [hm] at hc; cases hc
  | some r1 =>
    rw [hm, Option.some_bind] at hc
    simp only [Option.some_bind, hc, Option.map_some', List.length_append, hl,
      List.length_singleton, ← List.append_assoc, Nat.add_assoc]
    simp

/-- The copy step leaves the block when chunk and terminator do not fit. -/
theorem write_callback_copy_overrun (data : Buf) (add_len new_len : Nat)
    (cg1 : cgtranslate_t) (res : Buf) (hres : cg1.res = some res)
    (hover : res.length < cg1.res_len + add_len + 1) :
    write_callback_copy data add_len new_len cg1 = none := by
  simp only [write_callback_copy, hres, Option.some_bind, store_eq_memcpy]
  split
  · rename_i hdata
    have hl : (data.take add_len).length = add_len := by simp; omega
    cases hm : memcpy res cg1.res_len (List.take add_len data) with
    | none => rfl
    | some r1 =>
      have hr := memcpy_length hm
      rw [Option.some_bind, memcpy_none r1 _ [0] (by simp; omega)]
      rfl
  · rfl

/-- A call that needs no growth copies the chunk and keeps block and
    capacity. -/
theorem write_callback_no_growth (fresh : Option (Nat → Byte)) (data : Buf) (size nmemb : Nat)
    (cg : cgtranslate_t) (res : Buf) (hres : cg.res = some res)
    (hdata : size * nmemb ≤ data.length)
    (hroom : cg.res_len + size * nmemb + 1 < cg.res_alloc)
    (hcap : cg.res_alloc ≤ res.length) (hsz : cg.res_alloc ≤ SIZE_MOD) :
    write_callback fresh data size nmemb cg =
      some ({ cg with
                res := some (res.take cg.res_len ++ data.take (size * nmemb) ++
                  0 :: res.drop (cg.res_len + size * nmemb + 1)),
                res_len := cg.res_len + size * nmemb }, size * nmemb) := by
  have h1 : size * nmemb % SIZE_MOD = size * nmemb := Nat.mod_eq_of_lt (by omega)
  have h2 : (cg.res_len + size * nmemb) % SIZE_MOD = cg.res_len + size * nmemb :=
    Nat.mod_eq_of_lt (by omega)
  have h3 : (cg.res_len + size * nmemb + 1) % SIZE_MOD = cg.res_len + size * nmemb + 1 :=
    Nat.mod_eq_of_lt (by omega)
  have h4 : ¬ cg.res_len + size * nmemb + 1 ≥ cg.res_alloc := by omega
  simp only [write_callback, h1, h2, h3, h4, if_false]
  exact write_callback_copy_fits data _ _ cg res hres hdata (by omega)

/-- A call that grows the block once and still has no room for chunk and
    terminator writes past the new block. -/
theorem write_callback_growth_overrun (f : Nat → Byte) (data : Buf) (size nmemb : Nat)
    (cg : cgtranslate_t)
    (hgrow : cg.res_alloc * 2 + 1 < cg.res_len + size * nmemb + 1)
    (hsz : cg.res_len + size * nmemb + 1 < SIZE_MOD) :
    write_callback (some f) data size nmemb cg = none := by
  have h1 : size * nmemb % SIZE_MOD = size * nmemb := Nat.mod_eq_of_lt (by omega)
  have h2 : (cg.res_len + size * nmemb) % SIZE_MOD = cg.res_len + size * nmemb :=
    Nat.mod_eq_of_lt (by omega)
  have h3 : (cg.res_len + size * nmemb + 1) % SIZE_MOD = cg.res_len + size * nmemb + 1 :=
    Nat.mod_eq_of_lt (by omega)
  have h4 : cg.res_len + size * nmemb + 1 ≥ cg.res_alloc := by omega
  have h5 : (cg.res_alloc * 2 + 1) % SIZE_MOD = cg.res_alloc * 2 + 1 :=
    Nat.mod_eq_of_lt (by omega)
  obtain ⟨b, hb, hbl⟩ := realloc_length f cg.res (cg.res_alloc * 2 + 1)
  simp only [write_callback, h1, h2, h3, h4, h5, if_true, hb]
  exact write_callback_copy_overrun data _ _ _ b rfl (by simp only [hbl]; omega)

/-! ## The response buffer: the capacity invariant -/

/-- C5 (the code departs from the claim): from the fresh response block of
    `cgtr_execute` (length 0, capacity 8192), a chunk of 100 bytes followed by a
    chunk of 16384 bytes, every reallocation succeeding, does not end with
    `res_len = 16484` and `res_alloc ≥ 16485`: the second call grows the block
    once, to `2 * 8192 + 1 = 16385` bytes, and then copies past its end.  A
    single chunk of 16385 bytes does the same: its terminating NUL falls one
    byte after the grown block. -/
theorem write_callback_overruns_fresh_block (cg : cgtranslate_t) (f g : Nat → Byte) :
    curl_easy_perform 0
      [⟨List.replicate 100 65, 1, 100, none⟩, ⟨List.replicate 16384 66, 1, 16384, some g⟩]
      (fresh_response cg f) = none ∧
    write_callback (some g) (List.replicate 16385 66) 1 16385 (fresh_response cg f) = none := by
  obtain ⟨b, hb, hbl⟩ := malloc_length f 8192
  have hd1 : 1 * 100 ≤ (List.replicate 100 (65 : Byte)).length := by
    rw [List.length_replicate]
  have hsz : (8192 : Nat) ≤ SIZE_MOD := by decide
  have hsz2 : (100 + 1 * 16384 + 1 : Nat) < SIZE_MOD := by decide
  have hsz3 : (0 + 1 * 16385 + 1 : Nat) < SIZE_MOD := by decide
  have s1 := write_callback_no_growth none (List.replicate 100 65) 1 100 (fresh_response cg f) b
    hb hd1 (show 0 + 1 * 100 + 1 < 8192 by decide) (by rw [hbl]; exact Nat.le_refl _) hsz
  refine ⟨?_, write_callback_growth_overrun g _ 1 16385 (fresh_response cg f)
    (show 8192 * 2 + 1 < 0 + 1 * 16385 + 1 by decide) hsz3⟩
  rw [curl_easy_perform]
  simp only [s1, Option.some_bind, if_true, curl_easy_perform]
  rw [write_callback_growth_overrun g _ 1 16384 _
    (show 8192 * 2 + 1 < 0 + 1 * 100 + 1 * 16384 + 1 by decide) hsz2]
  rfl

/-! ## Lemmas on the marker search -/

theorem find_sub_some (needle : List Byte) :
    ∀ (l : List Byte) (k : Nat), find_sub needle l = some k →
      needle <+: l.drop k ∧ ∀ k2, k2 < k → ¬ needle <+: l.drop k2 := by
  intro l
  induction l with
  | nil =>
    intro k h
    simp only [find_sub] at h
    split at h
    · cases h
      rename_i he
      refine ⟨?_, fun k2 hk => absurd hk (Nat.not_lt_zero _)⟩
      rw [List.isEmpty_iff] at he
      simp [he]
    · cases h
  | cons c rest ih =>
    intro k h
    simp only [find_sub] at h
    split at h
    · cases h
      rename_i hp
      exact ⟨by simpa using hp, fun k2 hk => absurd hk (Nat.not_lt_zero _)⟩
    · rename_i hp
      cases hr : find_sub needle rest with
      | none => rw [hr] at h; cases h
      | some k1 =>
        rw [hr] at h
        simp only [Option.map_some', Option.some.injEq] at h
        subst h
        obtain ⟨h1, h2⟩ := ih k1 hr
        refine ⟨by simpa using h1, ?_⟩
        intro k2 hk
        cases k2 with
        | zero => simpa using hp
        | succ k3 => simpa using h2 k3 (by omega)

theorem find_sub_none (needle : List Byte) :
    ∀ (l : List Byte), find_sub needle l = none →
      ∀ k, k ≤ l.length → ¬ needle <+: l.drop k := by
  intro l
  induction l with
  | nil =>
    intro h k _
    simp only [find_sub] at h
    split at h
    · cases h
    · rename_i he
      rw [List.isEmpty_iff] at he
      simpa using he
  | cons c rest ih =>
    intro h k hk
    simp only [find_sub] at h
    split at h
    · cases h
    · rename_i hp
      cases hr : find_sub needle rest with
      | some k1 => rw [hr] at h; cases h
      | none =>
        cases k with
        | zero => simpa using hp
        | succ k3 => simpa using ih hr k3 (by simpa using hk)

/-- The search gives `k` exactly when the needle occurs at offset `k` and at
    no smaller one. -/
theorem find_sub_eq_some_iff (needle l : List Byte) (k : Nat) (hk : k ≤ l.length) :
    find_sub needle l = some k ↔
      needle <+: l.drop k ∧ ∀ k2, k2 < k → ¬ needle <+: l.drop k2 := by
  constructor
  · exact find_sub_some needle l k
  · intro ⟨h1, h2⟩
    cases hr : find_sub needle l with
    | none => exact absurd h1 (find_sub_none needle l hr k hk)
    | some k1 =>
      obtain ⟨h3, h4⟩ := find_sub_some needle l k1 hr
      have : k1 = k := by
        rcases Nat.lt_trichotomy k1 k with h | h | h
        · exact absurd h3 (h2 k1 h)
        · exact h
        · exact absurd h1 (h4 k h)
      rw [this]

/-- An occurrence in a list is an occurrence in every list that extends it. -/
theorem occurs_of_extends {needle a b : List Byte} (k : Nat) (hab : a <+: b)
    (h : needle <+: a.drop k) : needle <+: b.drop k := by
  obtain ⟨t, rfl⟩ := hab
  by_cases hk : k ≤ a.length
  · rw [List.drop_append_of_le_length hk]
    exact h.trans (List.prefix_append _ _)
  · have : a.drop k = [] := List.drop_eq_nil_of_le (by omega)
    rw [this, List.prefix_nil] at h
    subst h
    exact List.nil_prefix

/-- An occurrence that ends inside a shorter list is an occurrence in it. -/
theorem occurs_of_fits {needle a b : List Byte} (k : Nat) (hab : a <+: b)
    (h : needle <+: b.drop k) (hfit : k + needle.length ≤ a.length) :
    needle <+: a.drop k := by
  obtain ⟨t, rfl⟩ := hab
  rw [List.drop_append_of_le_length (by omega)] at h
  exact List.prefix_of_prefix_length_le h (List.prefix_append _ _) (by simp; omega)

/-! ## Lemmas on the scan for `<` -/

/-- The scan from offset `i ≤ max` over bytes that reach index `max`, where the
    byte at index `max` is not `<`: it stops on the first `<` before `max`, or
    reports failure when there is none; it never leaves the block. -/
theorem scan_tag_spec (max : Nat) :
    ∀ (l : List Byte) (i j : Nat), i ≤ max → max - i < l.length →
      l[max - i]? ≠ some 60 →
      (∃ t, t < max - i ∧ l[t]? = some 60 ∧ (∀ t2, t2 < t → l[t2]? ≠ some 60) ∧
          scan_tag max l i j = .found (j + t)) ∨
      ((∀ t, t < max - i → l[t]? ≠ some 60) ∧ scan_tag max l i j = .not_found) := by
  intro l
  induction l with
  | nil =>
    intro i j _ hl _
    simp at hl
  | cons c rest ih =>
    intro i j hi hl hne
    by_cases hc : c = 60
    · left
      have hlt : 0 < max - i := by
        rcases Nat.eq_zero_or_pos (max - i) with h0 | h0
        · rw [h0] at hne
          simp [hc] at hne
        · exact h0
      exact ⟨0, hlt, by simp [hc], fun t2 h2 => absurd h2 (Nat.not_lt_zero _),
        by simp [scan_tag, hc]⟩
    · by_cases hm : i ≥ max
      · right
        refine ⟨fun t ht => ?_, by simp [scan_tag, hc, hm]⟩
        omega
      · have e : max - i = (max - (i + 1)) + 1 := by omega
        have hl2 : max - (i + 1) < rest.length := by
          simp only [List.length_cons] at hl
          omega
        have hne2 : rest[max - (i + 1)]? ≠ some 60 := by
          rw [e] at hne
          simpa using hne
        rcases ih (i + 1) (j + 1) (by omega) hl2 hne2 with ⟨t, h1, h2, h3, h4⟩ | ⟨h1, h2⟩
        · left
          refine ⟨t + 1, by omega, by simpa using h2, ?_, ?_⟩
          · intro t2 ht2
            cases t2 with
            | zero => simp [hc]
            | succ t3 => simpa using h3 t3 (by omega)
          · simp only [scan_tag, hc, hm, if_false, h4]
            congr 1
            omega
        · right
          refine ⟨?_, by simp only [scan_tag, hc, hm, if_false, h2]⟩
          intro t ht
          cases t with
          | zero => simp [hc]
          | succ t3 => simpa using h1 t3 (by omega)

/-- A block with a NUL at index `n` holds a C string of at most `n` bytes. -/
theorem c_string_of_nul :
    ∀ (l : List Byte) (n : Nat), l[n]? = some 0 →
      ∃ s rest, l = s ++ 0 :: rest ∧ s.all (fun b => b != 0) = true ∧ s.length ≤ n := by
  intro l
  induction l with
  | nil =>
    intro n h
    simp at h
  | cons a l ih =>
    intro n h
    by_cases ha : a = 0
    · exact ⟨[], l, by simp [ha], rfl, Nat.zero_le _⟩
    · cases n with
      | zero => simp [ha] at h
      | succ n1 =>
        obtain ⟨s, rest, h1, h2, h3⟩ := ih n1 (by simpa using h)
        refine ⟨a :: s, rest, by simp [h1], ?_, by simp; omega⟩
        simp [ha, h2]

theorem strstr_of_nul (res : Buf) (n : Nat) (hnul : res[n]? = some 0) :
    strstr res find = some (find_sub find (res.takeWhile fun b => b != 0)) ∧
    (res.takeWhile fun b => b != 0).length ≤ n := by
  obtain ⟨s, rest, h1, h2, h3⟩ := c_string_of_nul res n hnul
  have hs : (res.takeWhile fun b => b != 0) = s := by rw [h1, takeWhile_nonzero s rest h2]
  have hc : c_string res 0 = some s := by
    have := c_string_at [] s rest 0 rfl h2
    rw [h1]
    simpa using this
  rw [hs]
  exact ⟨by simp [strstr, hc], h3⟩

/-- The marker is not in the C string of the response: "result not found". -/
theorem parse_response_no_marker (fresh : Option (Nat → Byte)) (cg : cgtranslate_t)
    (res : Buf) (hres : cg.res = some res) (hnul : res[cg.res_len]? = some 0)
    (hno : find_sub find (res.takeWhile fun b => b != 0) = none) :
    parse_response fresh cg =
      some ({ cg with error_str := .literal "Cannot find translated result" }, -EBADMSG) := by
  simp only [parse_response, hres, Option.some_bind, (strstr_of_nul res _ hnul).1, hno]

/-- What the scan of `parse_response` does after a marker found at offset
    `k`. -/
theorem parse_response_scan (cg : cgtranslate_t) (res : Buf) (k : Nat)
    (hnul : res[cg.res_len]? = some 0)
    (hk : find_sub find (res.takeWhile fun b => b != 0) = some k) :
    k + find.length ≤ cg.res_len ∧
    ((∃ e, k + find.length ≤ e ∧ e < cg.res_len ∧ res[e]? = some 60 ∧
        (∀ i, k + find.length ≤ i → i < e → res[i]? ≠ some 60) ∧
        scan_tag cg.res_len (res.drop (k + find.length)) (k + find.length) 0 =
          .found (e - (k + find.length))) ∨
     ((∀ i, k + find.length ≤ i → i < cg.res_len → res[i]? ≠ some 60) ∧
        scan_tag cg.res_len (res.drop (k + find.length)) (k + find.length) 0 =
          .not_found)) := by
  obtain ⟨_, hsl⟩ := strstr_of_nul res _ hnul
  have hocc := (find_sub_some find _ k hk).1
  have hm : k + find.length ≤ cg.res_len := by
    have := hocc.length_le
    have hf : find.length = 30 := by decide
    rw [List.length_drop] at this
    omega
  have hn : cg.res_len < res.length := by
    rcases Nat.lt_or_ge cg.res_len res.length with h | h
    · exact h
    · rw [List.getElem?_eq_none h] at hnul
      cases hnul
  refine ⟨hm, ?_⟩
  have hidx : ∀ t, (res.drop (k + find.length))[t]? = res[k + find.length + t]? := by
    intro t
    rw [List.getElem?_drop]
  have hlast : (res.drop (k + find.length))[cg.res_len - (k + find.length)]? ≠ some 60 := by
    rw [hidx, Nat.add_sub_cancel' hm, hnul]
    decide
  rcases scan_tag_spec cg.res_len (res.drop (k + find.length)) (k + find.length) 0 hm
      (by rw [List.length_drop]; omega) hlast with ⟨t, h1, h2, h3, h4⟩ | ⟨h1, h2⟩
  · left
    refine ⟨k + find.length + t, by omega, by omega, by rw [← hidx]; exact h2, ?_, ?_⟩
    · intro i hi1 hi2
      have := h3 (i - (k + find.length)) (by omega)
      rw [hidx, Nat.add_sub_cancel' hi1] at this
      exact this
    · rw [h4]
      congr 1
      omega
  · right
    refine ⟨?_, h2⟩
    intro i hi1 hi2
    have := h1 (i - (k + find.length)) (by omega)
    rw [hidx, Nat.add_sub_cancel' hi1] at this
    exact this

/-- No `<` between the marker and the end of the response: "result not
    found". -/
theorem parse_response_no_tag (fresh : Option (Nat → Byte)) (cg : cgtranslate_t)
    (res : Buf) (k : Nat) (hres : cg.res = some res) (hnul : res[cg.res_len]? = some 0)
    (hk : find_sub find (res.takeWhile fun b => b != 0) = some k)
    (hscan : scan_tag cg.res_len (res.drop (k + find.length)) (k + find.length) 0 =
      .not_found) :
    parse_response fresh cg =
      some ({ cg with error_str := .literal "Cannot find translated result" }, -EBADMSG) := by
  simp only [parse_response, hres, Option.some_bind, (strstr_of_nul res _ hnul).1, hk, hscan]

/-- The scan met `<` at index `e`: the bytes between the marker and `e` are
    copied, with a NUL, into a new block, and the `<` of the response block is
    replaced by a NUL. -/
theorem parse_response_tag (f : Nat → Byte) (cg : cgtranslate_t) (res : Buf) (k e : Nat)
    (hres : cg.res = some res) (hnul : res[cg.res_len]? = some 0)
    (hk : find_sub find (res.takeWhile fun b => b != 0) = some k)
    (hme : k + find.length ≤ e) (hen : e < cg.res_len) (hsz : cg.res_len < SIZE_MOD)
    (hscan : scan_tag cg.res_len (res.drop (k + find.length)) (k + find.length) 0 =
      .found (e - (k + find.length))) :
    parse_response (some f) cg =
      some ({ cg with res := some (res.take e ++ 0 :: res.drop (e + 1)),
                      clear_res := .block ((res.take e).drop (k + find.length) ++ [0]) },
        0) := by
  have hn : cg.res_len < res.length := by
    rcases Nat.lt_or_ge cg.res_len res.length with h | h
    · exact h
    · rw [List.getElem?_eq_none h] at hnul
      cases hnul
  generalize hm : k + find.length = m at *
  have hpe : m + (e - m) = e := by omega
  have hst : store res e 0 = some (res.take e ++ 0 :: res.drop (e + 1)) := by
    rw [store_eq_memcpy, memcpy_fits res e [0] (by simp; omega)]
    simp
  have hmod : (e - m + 1) % SIZE_MOD = e - m + 1 := Nat.mod_eq_of_lt (by omega)
  have hte : (res.take e).length = e := by simp; omega
  have hcopy : ((res.take e ++ 0 :: res.drop (e + 1)).drop m).take (e - m + 1) =
      (res.take e).drop m ++ [0] := by
    have h1 : ((res.take e).drop m).length = e - m := by simp; omega
    rw [List.drop_append_of_le_length (by omega)]
    have h2 : 0 :: res.drop (e + 1) = [0] ++ res.drop (e + 1) := rfl
    rw [h2, ← List.append_assoc]
    exact take_append_len _ _ _ (by simp; omega)
  have hlen : m + (e - m + 1) ≤ (res.take e ++ 0 :: res.drop (e + 1)).length := by
    simp
    omega
  have hblk : memcpy ((List.range (e - m + 1)).map f) 0 ((res.take e).drop m ++ [0]) =
      some ((res.take e).drop m ++ [0]) := by
    rw [memcpy_fits _ 0 _ (by simp; omega)]
    have h1 : ((res.take e).drop m ++ [0]).length = e - m + 1 := by simp; omega
    have hd : List.drop (e - m + 1) (List.map f (List.range (e - m + 1))) = [] :=
      List.drop_eq_nil_of_le (by simp)
    rw [Nat.zero_add, h1, hd]
    simp only [List.take_zero, List.nil_append, List.append_nil]
  simp only [parse_response, hres, Option.some_bind, (strstr_of_nul res _ hnul).1, hk, hm,
    hscan, hpe, hst, hmod, malloc, Option.map_some', hlen, if_true, hcopy, hblk]

/-! ## The extraction -/

/-- C6 fails as stated: in the response `\0<div class="result-container">HELLO<`
    the first marker ends at index 31 and the first `<` after it is at index
    36, inside the 37 bytes, but `parse_response` returns `-EBADMSG`: the search
    `strstr` stops at the NUL byte in front of the marker. -/
theorem parse_response_nul_before_marker :
    (session_with_response (0 :: lit "<div class=\"result-container\">HELLO<")).res_len = 37 ∧
    find <+: ((0 :: lit "<div class=\"result-container\">HELLO<").take 37).drop 1 ∧
    (∀ k2, k2 < 1 →
      ¬ find <+: ((0 :: lit "<div class=\"result-container\">HELLO<").take 37).drop k2) ∧
    (0 :: lit "<div class=\"result-container\">HELLO<")[36]? = some 60 ∧
    (∀ i, i < 36 → 1 + find.length ≤ i →
      (0 :: lit "<div class=\"result-container\">HELLO<")[i]? ≠ some 60) ∧
    parse_response (some fun _ => 0)
        (session_with_response (0 :: lit "<div class=\"result-container\">HELLO<")) =
      some ({ session_with_response (0 :: lit "<div class=\"result-container\">HELLO<") with
                error_str := .literal "Cannot find translated result" }, -EBADMSG) := by
  decide

/-- C6 as amended: for every response block of length `n`, NUL-terminated at
    index `n`, in which the first occurrence of the marker within
    `response[0:n]` ends at index `m = k + 30` with no NUL byte before `m`, and
    in which the first `<` at an index `≥ m` lies at `e < n`, `parse_response`
    (its allocation succeeding) returns 0 and stores exactly the bytes
    `response[m:e]`, NUL-terminated; for `e = m` that is the empty string. -/
theorem parse_response_extracts (f : Nat → Byte) (cg : cgtranslate_t) (res : Buf) (k e : Nat)
    (hres : cg.res = some res) (hnul : res[cg.res_len]? = some 0)
    (hsz : cg.res_len < SIZE_MOD)
    (hocc : find <+: (res.take cg.res_len).drop k)
    (hfirst : ∀ k2, k2 < k → ¬ find <+: (res.take cg.res_len).drop k2)
    (hclean : ∀ i, i < k + find.length → res[i]? ≠ some 0)
    (hme : k + find.length ≤ e) (hen : e < cg.res_len) (he : res[e]? = some 60)
    (hlt : ∀ i, i < e → k + find.length ≤ i → res[i]? ≠ some 60) :
    parse_response (some f) cg =
      some ({ cg with
                res := some (res.take e ++ 0 :: res.drop (e + 1)),
                clear_res := .block (slice (res.take cg.res_len) (k + find.length) e ++ [0]) },
        0) := by
  obtain ⟨s, rest, h1, h2, h3⟩ := c_string_of_nul res _ hnul
  have hs : (res.takeWhile fun b => b != 0) = s := by rw [h1, takeWhile_nonzero s rest h2]
  have hsp : s <+: res := ⟨0 :: rest, h1.symm⟩
  have htp : res.take cg.res_len <+: res := List.take_prefix _ _
  have hsm : k + find.length ≤ s.length := by
    rcases Nat.lt_or_ge s.length (k + find.length) with h | h
    · have hz : (s ++ 0 :: rest)[s.length]? = some 0 := by
        rw [List.getElem?_append_right (Nat.le_refl _), Nat.sub_self]
        simp
      rw [← h1] at hz
      exact absurd hz (hclean s.length h)
    · exact h
  have hk : find_sub find (res.takeWhile fun b => b != 0) = some k := by
    rw [hs, find_sub_eq_some_iff find s k (by omega)]
    refine ⟨occurs_of_fits k hsp (occurs_of_extends k htp hocc) hsm, ?_⟩
    intro k2 hk2 hc
    refine hfirst k2 hk2 (occurs_of_fits k2 htp (occurs_of_extends k2 hsp hc) ?_)
    rw [List.length_take]
    have : cg.res_len < res.length := by
      rcases Nat.lt_or_ge cg.res_len res.length with h | h
      · exact h
      · rw [List.getElem?_eq_none h] at hnul
        cases hnul
    omega
  have hslice : slice (res.take cg.res_len) (k + find.length) e =
      (res.take e).drop (k + find.length) := by
    rw [slice, List.take_take, Nat.min_eq_left (by omega)]
  rw [hslice]
  rcases (parse_response_scan cg res k hnul hk).2 with ⟨e2, g1, g2, g3, g4, g5⟩ | ⟨g1, _⟩
  · have : e2 = e := by
      rcases Nat.lt_trichotomy e2 e with h | h | h
      · exact absurd g3 (hlt e2 h g1)
      · exact h
      · exact absurd he (g4 e hme h)
    subst this
    exact parse_response_tag f cg res k e2 hres hnul hk hme hen hsz g5
  · exact absurd he (g1 e hme hen)

/-- Witness of C6: the response `ab<div class="result-container">HELLO<br>`
    gives `HELLO`, and the response `<div class="result-container"></div>`
    gives the empty string. -/
theorem parse_response_extracts_witness :
    ((session_with_response (lit "ab<div class=\"result-container\">HELLO<br>")).res_len = 41 ∧
      find <+: ((lit "ab<div class=\"result-container\">HELLO<br>").take 41).drop 2 ∧
      (lit "ab<div class=\"result-container\">HELLO<br>")[37]? = some 60 ∧
      ∃ cg1, parse_response (some fun _ => 7)
          (session_with_response (lit "ab<div class=\"result-container\">HELLO<br>")) =
            some (cg1, 0) ∧
        cgtr_get_result cg1 = .block (lit "HELLO" ++ [0])) ∧
    (∃ cg1, parse_response (some fun _ => 7)
          (session_with_response (lit "<div class=\"result-container\"></div>")) =
            some (cg1, 0) ∧
        cgtr_get_result cg1 = .block [0]) :=
  ⟨⟨by decide, by decide, by decide, _,
      parse_response_extracts (fun _ => 7)
        (session_with_response (lit "ab<div class=\"result-container\">HELLO<br>"))
        (lit "ab<div class=\"result-container\">HELLO<br>" ++ [0, 60, 47, 62]) 2 37
        rfl (by decide) (by decide) (by decide) (by decide) (by decide) (by decide)
        (by decide) (by decide) (by decide), by decide⟩,
    ⟨_,
      parse_response_extracts (fun _ => 7)
        (session_with_response (lit "<div class=\"result-container\"></div>"))
        (lit "<div class=\"result-container\"></div>" ++ [0, 60, 47, 62]) 0 30
        rfl (by decide) (by decide) (by decide) (by decide) (by decide) (by decide)
        (by decide) (by decide) (by decide), by decide⟩⟩

/-! ## The failures of the extraction -/

/-- A response without a NUL byte is its own C string. -/
theorem c_string_eq_take (res : Buf) (n : Nat) (hnul : res[n]? = some 0)
    (hclean : ∀ i, i < n → res[i]? ≠ some 0) :
    res.takeWhile (fun b => b != 0) = res.take n := by
  obtain ⟨s, rest, h1, h2, h3⟩ := c_string_of_nul res n hnul
  have hz : (s ++ 0 :: rest)[s.length]? = some 0 := by
    rw [List.getElem?_append_right (Nat.le_refl _), Nat.sub_self]
    simp
  have hn : s.length = n := by
    rcases Nat.lt_or_ge s.length n with h | h
    · rw [← h1] at hz
      exact absurd hz (hclean s.length h)
    · omega
  rw [h1, takeWhile_nonzero s rest h2, take_append_len _ _ _ hn]

theorem infix_of_occurs {needle l : List Byte} (k : Nat) (h : needle <+: l.drop k) :
    needle <:+: l :=
  h.isInfix.trans (List.drop_suffix k l).isInfix

theorem occurs_of_infix {needle l : List Byte} (h : needle <:+: l) :
    ∃ k, k ≤ l.length ∧ needle <+: l.drop k := by
  obtain ⟨a, b, rfl⟩ := h
  refine ⟨a.length, by simp, ?_⟩
  rw [List.append_assoc, List.drop_left]
  exact List.prefix_append _ _

/-- C7 fails as stated: the response `a\0<div class="result-container">x<` is
    NUL-terminated at its length 34, the marker occurs in it and a `<` follows
    the marker at index 33, and still `parse_response` fails with `-EBADMSG`. -/
theorem parse_response_fails_despite_marker :
    (session_with_response (97 :: 0 :: lit "<div class=\"result-container\">x<")).res_len = 34 ∧
    (97 :: 0 :: lit "<div class=\"result-container\">x<" ++ [0, 60, 47, 62])[34]? = some 0 ∧
    find <:+: (97 :: 0 :: lit "<div class=\"result-container\">x<").take 34 ∧
    find <+: ((97 :: 0 :: lit "<div class=\"result-container\">x<").take 34).drop 2 ∧
    (97 :: 0 :: lit "<div class=\"result-container\">x<")[33]? = some 60 ∧
    parse_response (some fun _ => 0)
        (session_with_response (97 :: 0 :: lit "<div class=\"result-container\">x<")) =
      some ({ session_with_response (97 :: 0 :: lit "<div class=\"result-container\">x<") with
                error_str := .literal "Cannot find translated result" }, -EBADMSG) := by
  decide

/-- C7 as amended: for every response block that is NUL-terminated at index
    `n = res_len`, and the result allocation succeeding, `parse_response` fails
    if and only if either the marker does not occur in the response up to its
    first NUL byte (that is all of `response[0:n]` when the response holds no
    NUL), or it occurs there but no `<` lies between the end of its first
    occurrence and index `n`; every failure is `-EBADMSG` with the message
    `Cannot find translated result`. -/
theorem parse_response_fails_iff (f : Nat → Byte) (cg : cgtranslate_t) (res : Buf)
    (hres : cg.res = some res) (hnul : res[cg.res_len]? = some 0)
    (hsz : cg.res_len < SIZE_MOD) :
    ((∀ i, i < cg.res_len → res[i]? ≠ some 0) →
      res.takeWhile (fun b => b != 0) = res.take cg.res_len) ∧
    ∃ cg1 ret, parse_response (some f) cg = some (cg1, ret) ∧
      (ret ≠ 0 ↔
        (¬ find <:+: res.takeWhile (fun b => b != 0) ∨
          ∃ k, find <+: (res.takeWhile fun b => b != 0).drop k ∧
            (∀ k2, k2 < k → ¬ find <+: (res.takeWhile fun b => b != 0).drop k2) ∧
            ∀ i, i < cg.res_len → k + find.length ≤ i → res[i]? ≠ some 60)) ∧
      (ret ≠ 0 → ret = -EBADMSG ∧
        cg1.error_str = .literal "Cannot find translated result") := by
  refine ⟨fun hclean => c_string_eq_take res _ hnul hclean, ?_⟩
  cases hf : find_sub find (res.takeWhile fun b => b != 0) with
  | none =>
    refine ⟨_, _, parse_response_no_marker (some f) cg res hres hnul hf, ?_, fun _ => ⟨rfl, rfl⟩⟩
    refine ⟨fun _ => Or.inl ?_, fun _ => by decide⟩
    intro hin
    obtain ⟨k, hk1, hk2⟩ := occurs_of_infix hin
    exact find_sub_none find _ hf k hk1 hk2
  | some k =>
    obtain ⟨o1, o2⟩ := find_sub_some find _ k hf
    obtain ⟨hm, hscan⟩ := parse_response_scan cg res k hnul hf
    rcases hscan with ⟨e, g1, g2, g3, g4, g5⟩ | ⟨g1, g2⟩
    · refine ⟨_, _, parse_response_tag f cg res k e hres hnul hf g1 g2 hsz g5, ?_,
        fun h => absurd rfl h⟩
      refine ⟨fun h => absurd rfl h, ?_⟩
      rintro (hno | ⟨k3, p1, p2, p3⟩)
      · exact absurd (infix_of_occurs k o1) hno
      · have : k3 = k := by
          rcases Nat.lt_trichotomy k3 k with h | h | h
          · exact absurd p1 (o2 k3 h)
          · exact h
          · exact absurd o1 (p2 k h)
        subst this
        exact absurd g3 (p3 e g2 g1)
    · refine ⟨_, _, parse_response_no_tag (some f) cg res k hres hnul hf g2, ?_,
        fun _ => ⟨rfl, rfl⟩⟩
      exact ⟨fun _ => Or.inr ⟨k, o1, o2, fun i h1 h2 => g1 i h2 h1⟩, fun _ => by decide⟩

/-- Witness of C7: the response `<div class="result-container">HELLO`, cut
    before any `<`, fails; it holds no NUL, so its C string is all of it. -/
theorem parse_response_fails_iff_witness :
    (session_with_response (lit "<div class=\"result-container\">HELLO")).res =
      some (lit "<div class=\"result-container\">HELLO" ++ [0, 60, 47, 62]) ∧
    (lit "<div class=\"result-container\">HELLO" ++ [0, 60, 47, 62])[35]? = some 0 ∧
    parse_response (some fun _ => 7)
        (session_with_response (lit "<div class=\"result-container\">HELLO")) =
      some ({ session_with_response (lit "<div class=\"result-container\">HELLO") with
                error_str := .literal "Cannot find translated result" }, -EBADMSG) ∧
    ((∀ i, i < (session_with_response
          (lit "<div class=\"result-container\">HELLO")).res_len →
        (lit "<div class=\"result-container\">HELLO" ++ [0, 60, 47, 62])[i]? ≠ some 0) →
      (lit "<div class=\"result-container\">HELLO" ++ [0, 60, 47, 62]).takeWhile
          (fun b => b != 0) =
        (lit "<div class=\"result-container\">HELLO" ++ [0, 60, 47, 62]).take
          (session_with_response (lit "<div class=\"result-container\">HELLO")).res_len) ∧
    ∃ cg1 ret, parse_response (some fun _ => 7)
        (session_with_response (lit "<div class=\"result-container\">HELLO")) =
          some (cg1, ret) ∧
      (ret ≠ 0 ↔
        (¬ find <:+: (lit "<div class=\"result-container\">HELLO" ++
            [0, 60, 47, 62]).takeWhile (fun b => b != 0) ∨
          ∃ k, find <+: ((lit "<div class=\"result-container\">HELLO" ++
              [0, 60, 47, 62]).takeWhile fun b => b != 0).drop k ∧
            (∀ k2, k2 < k → ¬ find <+: ((lit "<div class=\"result-container\">HELLO" ++
              [0, 60, 47, 62]).takeWhile fun b => b != 0).drop k2) ∧
            ∀ i, i < (session_with_response
                (lit "<div class=\"result-container\">HELLO")).res_len →
              k + find.length ≤ i →
              (lit "<div class=\"result-container\">HELLO" ++ [0, 60, 47, 62])[i]? ≠
                some 60)) ∧
      (ret ≠ 0 → ret = -EBADMSG ∧
        cg1.error_str = .literal "Cannot find translated result") :=
  ⟨rfl, by decide, by decide,
    parse_response_fails_iff (fun _ => 7)
      (session_with_response (lit "<div class=\"result-container\">HELLO"))
      (lit "<div class=\"result-container\">HELLO" ++ [0, 60, 47, 62]) rfl (by decide)
      (by decide)⟩

/-! ## Setting the languages -/

/-- C8 fails as stated: with the empty string as target, `cgtr_set_lang`
    returns 0, overwrites the stored source and leaves an empty stored
    target. -/
theorem cgtr_set_lang_empty_target :
    ∃ cg, cgtr_set_lang none en_ja_session none (some [0]) = some (cg, 0) ∧
      cg.to_ = List.replicate 8 0 ∧ cg.to_ ≠ en_ja_session.to_ ∧
      cg.from_ ≠ en_ja_session.from_ ∧ c_string cg.to_ 0 = some [] :=
  ⟨_, rfl, by decide, by decide, by decide, by decide⟩

/-- C8 as amended: for every session and every source argument, `cgtr_set_lang`
    with an absent (NULL) target returns `-EINVAL` and changes nothing but the
    error message (`err_heap` holds a copy of the text, `error_str` points to
    it), so the stored source and target languages are as before; the copy of
    the message is taken to be allocated. -/
theorem cgtr_set_lang_null_target (f : Nat → Byte) (cg : cgtranslate_t)
    (from_ : Option Buf) :
    ∃ cg1, cgtr_set_lang (some f) cg from_ none = some (cg1, -EINVAL) ∧
      cg1.from_ = cg.from_ ∧ cg1.to_ = cg.to_ ∧
      cg1 = { cg with err_heap := some (lit "Target language cannot be NULL" ++ [0]),
                      error_str := .err_heap } :=
  ⟨_, rfl, rfl, rfl, rfl⟩

/-! ## The response buffer: a failed reallocation -/

/-- When the block has to grow and `realloc` fails, `write_callback` returns 0
    and keeps block and length, but has already stored the doubled capacity. -/
theorem write_callback_realloc_fails (data : Buf) (size nmemb : Nat) (cg : cgtranslate_t)
    (hgrow : ((cg.res_len + size * nmemb % SIZE_MOD) % SIZE_MOD + 1) % SIZE_MOD ≥
      cg.res_alloc) :
    write_callback none data size nmemb cg =
      some ({ cg with res_alloc := (cg.res_alloc * 2 + 1) % SIZE_MOD }, 0) := by
  simp only [write_callback, hgrow, if_true, realloc, Option.map_none']

/-- C9 (the code departs from the claim): in the fresh response block of
    `cgtr_execute` (capacity 8192), a chunk of 16384 bytes needs a growth; when
    that reallocation fails `write_callback` returns 0 and keeps the block and
    `res_len`, but leaves `res_alloc = 16385` for a block of 8192 bytes. -/
theorem write_callback_failure_changes_capacity (cg : cgtranslate_t) (f : Nat → Byte) :
    write_callback none (List.replicate 16384 65) 1 16384 (fresh_response cg f) =
      some ({ fresh_response cg f with res_alloc := 16385 }, 0) ∧
    (fresh_response cg f).res_alloc = 8192 := by
  have e : ((fresh_response cg f).res_alloc * 2 + 1) % SIZE_MOD = 16385 :=
    show (8192 * 2 + 1) % SIZE_MOD = 16385 by decide
  refine ⟨?_, rfl⟩
  rw [write_callback_realloc_fails _ 1 16384 (fresh_response cg f)
    (show ((0 + 1 * 16384 % SIZE_MOD) % SIZE_MOD + 1) % SIZE_MOD ≥ 8192 by decide), e]

/-! ## The execution: a failure keeps the previous result -/

theorem write_callback_copy_clear_res (data : Buf) (add_len new_len : Nat)
    (cg cg1 : cgtranslate_t) (n : Nat)
    (h : write_callback_copy data add_len new_len cg = some (cg1, n)) :
    cg1.clear_res = cg.clear_res := by
  unfold write_callback_copy at h
  cases hres : cg.res with
  | none => rw [hres] at h; cases h
  | some res =>
    rw [hres, Option.some_bind] at h
    split at h
    · cases hm : memcpy res cg.res_len (List.take add_len data) with
      | none => rw [hm] at h; cases h
      | some r1 =>
        rw [hm, Option.some_bind] at h
        cases hs : store r1 (cg.res_len + add_len) 0 with
        | none => rw [hs] at h; cases h
        | some r2 =>
          rw [hs] at h
          cases h
          rfl
    · cases h

theorem write_callback_clear_res (fresh : Option (Nat → Byte)) (data : Buf) (size nmemb : Nat)
    (cg cg1 : cgtranslate_t) (n : Nat)
    (h : write_callback fresh data size nmemb cg = some (cg1, n)) :
    cg1.clear_res = cg.clear_res := by
  unfold write_callback at h
  simp only at h
  split at h
  · split at h
    · cases h
      rfl
    · exact (write_callback_copy_clear_res _ _ _ _ _ _ h).trans rfl
  · exact write_callback_copy_clear_res _ _ _ cg _ _ h

theorem curl_easy_perform_clear_res (cres : Nat) (calls : List Call) :
    ∀ (cg cg1 : cgtranslate_t) (code : Nat),
      curl_easy_perform cres calls cg = some (cg1, code) → cg1.clear_res = cg.clear_res := by
  induction calls with
  | nil =>
    intro cg cg1 code h
    simp only [curl_easy_perform, Option.some.injEq, Prod.mk.injEq] at h
    rw [← h.1]
  | cons c rest ih =>
    intro cg cg1 code h
    rw [curl_easy_perform] at h
    cases hw : write_callback c.fresh c.data c.size c.nmemb cg with
    | none => rw [hw] at h; cases h
    | some r =>
      obtain ⟨cg2, n⟩ := r
      have h2 := write_callback_clear_res _ _ _ _ _ _ _ hw
      rw [hw, Option.some_bind] at h
      split at h
      · rw [ih _ _ _ h, h2]
      · cases h
        exact h2

theorem parse_response_clear_res (fresh : Option (Nat → Byte)) (cg cg1 : cgtranslate_t)
    (h : parse_response fresh cg = some (cg1, -EBADMSG)) : cg1.clear_res = cg.clear_res := by
  unfold parse_response at h
  cases hres : cg.res with
  | none => rw [hres] at h; cases h
  | some res =>
    rw [hres, Option.some_bind] at h
    cases hs : strstr res find with
    | none => rw [hs] at h; cases h
    | some found =>
      rw [hs, Option.some_bind] at h
      cases found with
      | none =>
        cases h
        rfl
      | some k =>
        simp only at h
        split at h
        · cases h
        · cases h
          rfl
        · cases hst : store res (k + find.length + _) 0 with
          | none => rw [hst] at h; cases h
          | some res1 =>
            rw [hst, Option.some_bind] at h
            split at h
            · have h2 := (Prod.mk.inj (Option.some.inj h)).2
              exact absurd h2 (by decide)
            · split at h
              · cases hm : memcpy _ 0 _ with
                | none => rw [hm] at h; cases h
                | some c =>
                  rw [hm] at h
                  have h2 := (Prod.mk.inj (Option.some.inj h)).2
                  exact absurd h2 (by decide)
              · cases h

theorem cgtr_execute_request_clear_res (env : Env) (cg cg1 : cgtranslate_t)
    (h : cgtr_execute_request env cg = some (cg1, -EBADMSG)) :
    cg1.clear_res = cg.clear_res := by
  unfold cgtr_execute_request at h
  simp only at h
  split at h
  · exact absurd (Prod.mk.inj (Option.some.inj h)).2 (by decide)
  · cases hb : build_url { cg with res_len := 0 } _ with
    | none => rw [hb] at h; cases h
    | some u =>
      rw [hb, Option.some_bind] at h
      cases hp : curl_easy_perform env.cres env.calls
          { cg with res_len := 0, hdr_list := some (cg.hdr_list.getD [ua_header]) } with
      | none => rw [hp] at h; cases h
      | some r =>
        obtain ⟨cg2, code⟩ := r
        have h2 := curl_easy_perform_clear_res _ _ _ _ _ hp
        rw [hp, Option.some_bind] at h
        split at h
        · cases h
          exact h2
        · exact (parse_response_clear_res _ _ _ h).trans h2

theorem cgtr_execute_clear_res (env : Env) (cg cg1 : cgtranslate_t)
    (hex : cgtr_execute env cg = some (cg1, -EBADMSG)) : cg1.clear_res = cg.clear_res := by
  unfold cgtr_execute at hex
  split at hex
  · split at hex
    · exact absurd (Prod.mk.inj (Option.some.inj hex)).2 (by decide)
    · exact (cgtr_execute_request_clear_res _ _ _ hex).trans rfl
  · exact cgtr_execute_request_clear_res _ _ _ hex

/-- C10: for every session that holds an extracted result `r` and every
    behaviour of the environment, an execution that ends with `-EBADMSG` (the
    transport reported a failure, or the extraction did not find the marker or a
    `<` after it) leaves the result as it was: `cgtr_get_result` still gives
    `r`. -/
theorem cgtr_execute_failure_keeps_result (env : Env) (cg cg1 : cgtranslate_t) (r : Buf)
    (hr : cgtr_get_result cg = .block r)
    (hex : cgtr_execute env cg = some (cg1, -EBADMSG)) :
    cgtr_get_result cg1 = .block r := by
  rw [← hr]
  exact cgtr_execute_clear_res env cg cg1 hex

/-- Witness of C10: a session with the result `HELLO`; the transport delivers
    `no result here` and either reports success, so that the extraction finds no
    marker, or reports the failure 7. -/
theorem cgtr_execute_failure_keeps_result_witness :
    cgtr_get_result hello_session = .block (lit "HELLO" ++ [0]) ∧
    (cgtr_execute ⟨none, some fun _ => 2, [⟨lit "no result here", 1, 14, none⟩], 0,
        some fun _ => 3⟩ hello_session =
      some ({ hello_session with
                res_len := 14, res := some (lit "no result here" ++ List.replicate 49 0),
                hdr_list := some [ua_header],
                error_str := .literal "Cannot find translated result" }, -EBADMSG) ∧
    cgtr_get_result { hello_session with
                res_len := 14, res := some (lit "no result here" ++ List.replicate 49 0),
                hdr_list := some [ua_header],
                error_str := .literal "Cannot find translated result" } =
      .block (lit "HELLO" ++ [0])) ∧
    (cgtr_execute ⟨none, some fun _ => 2, [⟨lit "no result here", 1, 14, none⟩], 7,
        some fun _ => 3⟩ hello_session =
      some ({ hello_session with
                res_len := 14, res := some (lit "no result here" ++ List.replicate 49 0),
                hdr_list := some [ua_header], error_str := .curl 7 }, -EBADMSG) ∧
    cgtr_get_result { hello_session with
                res_len := 14, res := some (lit "no result here" ++ List.replicate 49 0),
                hdr_list := some [ua_header], error_str := .curl 7 } =
      .block (lit "HELLO" ++ [0])) :=
  ⟨rfl,
    ⟨by decide,
      cgtr_execute_failure_keeps_result
        ⟨none, some fun _ => 2, [⟨lit "no result here", 1, 14, none⟩], 0, some fun _ => 3⟩
        hello_session _ (lit "HELLO" ++ [0]) rfl (by decide)⟩,
    ⟨by decide,
      cgtr_execute_failure_keeps_result
        ⟨none, some fun _ => 2, [⟨lit "no result here", 1, 14, none⟩], 7, some fun _ => 3⟩
        hello_session _ (lit "HELLO" ++ [0]) rfl (by decide)⟩⟩

/-! ## Detaching the result -/

/-- C11: for every session, `cgtr_detach_result` returns exactly what
    `cgtr_get_result` returned just before and changes no field but the result
    reference; afterwards `cgtr_get_result` gives NULL, and a second
    `cgtr_detach_result` gives NULL and leaves the session as it is. -/
theorem cgtr_detach_result_spec (cg : cgtranslate_t) :
    (cgtr_detach_result cg).2 = cgtr_get_result cg ∧
    (cgtr_detach_result cg).1 = { cg with clear_res := .null } ∧
    cgtr_get_result (cgtr_detach_result cg).1 = .null ∧
    cgtr_detach_result (cgtr_detach_result cg).1 = ((cgtr_detach_result cg).1, .null) :=
  ⟨rfl, rfl, rfl, rfl⟩

/-! ## Storing the languages -/

theorem strncpy_bytes_string (q : List Byte) :
    ∀ (t : List Byte) (n : Nat), t.all (fun b => b != 0) = true →
      strncpy_bytes (t ++ 0 :: q) n = some (t.take n ++ List.replicate (n - t.length) 0) := by
  intro t
  induction t with
  | nil =>
    intro n _
    cases n with
    | zero => rfl
    | succ n => simp [strncpy_bytes]
  | cons a t ih =>
    intro n h
    simp only [List.all_cons, Bool.and_eq_true, bne_iff_ne, ne_eq] at h
    cases n with
    | zero => simp [strncpy_bytes]
    | succ n =>
      rw [List.cons_append, strncpy_bytes, if_neg h.1, ih n h.2]
      simp

theorem bind_then_map {α β γ : Type} (x : Option α) (f : α → Option β) (g : β → γ) :
    (x.bind fun a => (f a).map g) = (x.bind f).map g := by
  cases x <;> rfl

/-- What `strncpy(field, s, 7); field[7] = 0` leaves in an 8-byte field. -/
theorem set_field_string (dst t q : List Byte) (hdst : dst.length = 8)
    (ht : t.all (fun b => b != 0) = true) :
    ((strncpy dst (t ++ 0 :: q) (8 - 1)).bind fun f => store f (8 - 1) 0) =
      some (t.take 7 ++ 0 :: List.replicate (7 - t.length) 0) := by
  have hl : (t.take 7 ++ List.replicate (7 - t.length) 0).length = 7 := by
    simp
    omega
  have h1 : memcpy dst 0 (t.take 7 ++ List.replicate (7 - t.length) 0) =
      some (t.take 7 ++ List.replicate (7 - t.length) 0 ++ dst.drop 7) := by
    rw [memcpy_fits dst 0 _ (by rw [hl, hdst]; decide), hl]
    simp
  have h2 : (t.take 7 ++ List.replicate (7 - t.length) 0 ++ dst.drop 7).length = 8 := by
    rw [List.length_append, hl, List.length_drop, hdst]
  have h3 : (dst.drop 7).drop 1 = [] := by
    rw [List.drop_drop]
    exact List.drop_eq_nil_of_le (by rw [hdst])
  simp only [strncpy, strncpy_bytes_string q t 7 ht, Option.some_bind, h1, store_eq_memcpy,
    Nat.add_one_sub_one]
  rw [memcpy_fits _ 7 [0] (by rw [h2]; decide), take_append_len _ _ 7 hl]
  have h4 := drop_append_len _ (dst.drop 7) 7 1 hl
  simp only [List.length_singleton]
  rw [h4, h3, List.append_nil, List.append_assoc, ← List.replicate_succ',
    List.replicate_succ]

theorem c_string_field (t : List Byte) (k : Nat) (ht : t.all (fun b => b != 0) = true) :
    c_string (t.take 7 ++ 0 :: List.replicate k 0) 0 = some (t.take 7) := by
  have h7 : (t.take 7).all (fun b => b != 0) = true := by
    rw [List.all_eq_true] at ht ⊢
    intro b hb
    exact ht b (List.mem_of_mem_take hb)
  have := c_string_at [] (t.take 7) (List.replicate k 0) 0 rfl h7
  simpa using this

/-- C12: for every source argument (absent, or the string `f`) and every target
    string `t`, `cgtr_set_lang` on a session with 8-byte language fields returns
    0; afterwards the stored target is the first `min (len t) 7` bytes of `t`,
    the stored source is `auto` when the source is absent and else the first
    `min (len f) 7` bytes of `f`, both NUL-terminated inside their 8 bytes, and
    no other field has changed. -/
theorem cgtr_set_lang_stores (fresh : Option (Nat → Byte)) (cg : cgtranslate_t)
    (fs : Option (List Byte)) (fr t tr : List Byte)
    (hfl : cg.from_.length = 8) (htl : cg.to_.length = 8)
    (hf : ∀ f, fs = some f → f.all (fun b => b != 0) = true)
    (ht : t.all (fun b => b != 0) = true) :
    ∃ cg1, cgtr_set_lang fresh cg (fs.map fun f => f ++ 0 :: fr) (some (t ++ 0 :: tr)) =
        some (cg1, 0) ∧
      c_string cg1.to_ 0 = some (t.take 7) ∧
      c_string cg1.from_ 0 = some (match fs with
        | none => lit "auto"
        | some f => f.take 7) ∧
      cg1.to_.length = 8 ∧ cg1.from_.length = 8 ∧
      cg1 = { cg with from_ := cg1.from_, to_ := cg1.to_ } := by
  have hto := set_field_string cg.to_ t tr htl ht
  have hlen : ∀ s : List Byte, (s.take 7 ++ 0 :: List.replicate (7 - s.length) 0).length = 8 := by
    intro s
    simp
    omega
  cases fs with
  | none =>
    have hauto : memcpy cg.from_ 0 (lit "auto" ++ [0]) =
        some (lit "auto" ++ 0 :: cg.from_.drop 5) := by
      rw [memcpy_fits cg.from_ 0 _ (by rw [hfl]; decide)]
      rfl
    refine ⟨{ cg with from_ := lit "auto" ++ 0 :: cg.from_.drop 5,
                      to_ := t.take 7 ++ 0 :: List.replicate (7 - t.length) 0 }, ?_,
      c_string_field t _ ht, ?_, hlen t, ?_, rfl⟩
    · simp only [cgtr_set_lang, Option.map_none', hauto, Option.some_bind, bind_then_map, hto,
        Option.map_some']
    · exact c_string_at [] (lit "auto") (cg.from_.drop 5) 0 rfl (by decide)
    · show (lit "auto" ++ 0 :: cg.from_.drop 5).length = 8
      rw [List.length_append, List.length_cons, List.length_drop, hfl]
      rfl
  | some f =>
    have hfrom := set_field_string cg.from_ f fr hfl (hf f rfl)
    refine ⟨{ cg with from_ := f.take 7 ++ 0 :: List.replicate (7 - f.length) 0,
                      to_ := t.take 7 ++ 0 :: List.replicate (7 - t.length) 0 }, ?_,
      c_string_field t _ ht, c_string_field f _ (hf f rfl), hlen t, hlen f, rfl⟩
    simp only [cgtr_set_lang, Option.map_some', hfrom, Option.some_bind, bind_then_map, hto]

/-- Witness of C12: on the `en`/`ja` session, the source `verylonglang` is cut
    to `verylon` and the target `id` is stored whole. -/
theorem cgtr_set_lang_stores_witness :
    en_ja_session.from_.length = 8 ∧ en_ja_session.to_.length = 8 ∧
    ∃ cg1, cgtr_set_lang none en_ja_session
        ((some (lit "verylonglang")).map fun f => f ++ 0 :: [1, 2])
        (some (lit "id" ++ 0 :: [3])) = some (cg1, 0) ∧
      c_string cg1.to_ 0 = some ((lit "id").take 7) ∧
      c_string cg1.from_ 0 = some (match some (lit "verylonglang") with
        | none => lit "auto"
        | some f => f.take 7) ∧
      cg1.to_.length = 8 ∧ cg1.from_.length = 8 ∧
      cg1 = { en_ja_session with from_ := cg1.from_, to_ := cg1.to_ } :=
  ⟨by decide, by decide,
    cgtr_set_lang_stores none en_ja_session (some (lit "verylonglang")) [1, 2] (lit "id") [3]
      (by decide) (by decide) (by intro f h; cases h; decide) (by decide)⟩

/-! ## The encoder: output alphabet and concatenation -/

theorem encode_byte_output (c : Byte) (raw : Bool) :
    (encode_byte c raw).all (spec_output_byte raw) = true := by
  revert c raw
  decide

theorem spec_output_byte_excludes (raw : Bool) (b : Byte) (h : spec_output_byte raw b = true) :
    b ≠ 32 ∧ b ≠ 38 ∧ b ≠ 61 ∧ b ≠ 63 ∧ b ≠ 35 ∧ b ≠ 47 ∧ b ≠ 0 ∧ b.val < 128 ∧
      (raw = true → b ≠ 43) ∧ (raw = false → b ≠ 126) := by
  revert raw b
  decide

theorem hexchar_upper (c : Byte) :
    spec_upper_hex_digit (hexchar (c.val >>> 4)) = true ∧
    spec_upper_hex_digit (hexchar (c.val &&& 15)) = true := by
  revert c
  decide

theorem upper_hex_ne_percent (b : Byte) (h : spec_upper_hex_digit b = true) : b ≠ 37 := by
  revert b
  decide

theorem urlencode_text_output (s : List Byte) (raw : Bool) :
    ∀ b, b ∈ urlencode_text s raw → spec_output_byte raw b = true := by
  induction s with
  | nil => intro b hb; simp [urlencode_text] at hb
  | cons c rest ih =>
    intro b hb
    rw [urlencode_text_cons, List.mem_append] at hb
    rcases hb with hb | hb
    · exact List.all_eq_true.mp (encode_byte_output c raw) b hb
    · exact ih b hb

theorem percent_single (x : Byte) (rest : List Byte) (hx : x ≠ 37)
    (ih : spec_percent_escapes rest) : spec_percent_escapes (x :: rest) := by
  intro i hi
  cases i with
  | zero =>
    simp only [List.getElem?_cons_zero, Option.some.injEq] at hi
    exact absurd hi hx
  | succ i =>
    simp only [List.getElem?_cons_succ] at hi
    obtain ⟨h, l, h1, h2, h3, h4⟩ := ih i hi
    exact ⟨h, l, by simpa using h1, by simpa using h2, h3, h4⟩

theorem percent_escape (x y : Byte) (rest : List Byte)
    (hx : spec_upper_hex_digit x = true) (hy : spec_upper_hex_digit y = true)
    (ih : spec_percent_escapes rest) : spec_percent_escapes (37 :: x :: y :: rest) := by
  intro i hi
  cases i with
  | zero => exact ⟨x, y, by simp, by simp, hx, hy⟩
  | succ i =>
    simp only [List.getElem?_cons_succ] at hi
    obtain ⟨h, l, h1, h2, h3, h4⟩ := percent_single x (y :: rest) (upper_hex_ne_percent x hx)
      (percent_single y rest (upper_hex_ne_percent y hy) ih) i hi
    exact ⟨h, l, by simpa using h1, by simpa using h2, h3, h4⟩

theorem urlencode_text_percent (s : List Byte) (raw : Bool) :
    spec_percent_escapes (urlencode_text s raw) := by
  induction s with
  | nil =>
    intro i hi
    simp [urlencode_text] at hi
  | cons c rest ih =>
    rw [urlencode_text_cons]
    rcases encode_byte_cases c raw with ⟨h, _, _⟩ | ⟨h, h37, _⟩ | h
    · rw [h]
      exact percent_single 43 _ (by decide) ih
    · rw [h]
      refine percent_single c _ ?_ ih
      intro hc
      rw [hc] at h37
      exact h37 rfl
    · rw [h]
      exact percent_escape _ _ _ (hexchar_upper c).1 (hexchar_upper c).2 ih

/-- C17: for every input and both modes, every byte of the text `urlencode`
    returns is an ASCII letter, an ASCII digit, `-`, `.`, `_`, `%`, `+` (only
    when not raw) or `~` (only when raw), and every `%` in it is followed by two
    characters from `0-9A-F`; so the text holds no space, `&`, `=`, `?`, `#`,
    `/`, NUL or byte from `0x80` on. -/
theorem urlencode_alphabet (alloc : Option (Buf × Nat)) (fresh : Option (Nat → Byte))
    (s : List Byte) (raw : Bool) (buf : Buf) (pos : Nat)
    (hdst : urlencode_start alloc fresh s.length = some (buf, pos))
    (hroom : pos + (3 * s.length + 1) ≤ buf.length) :
    ∃ out text, urlencode alloc fresh s s.length raw = some out ∧
      c_string out pos = some text ∧
      (∀ b, b ∈ text → spec_output_byte raw b = true) ∧
      spec_percent_escapes text ∧
      (∀ b, b ∈ text → b ≠ 32 ∧ b ≠ 38 ∧ b ≠ 61 ∧ b ≠ 63 ∧ b ≠ 35 ∧ b ≠ 47 ∧ b ≠ 0 ∧
        b.val < 128 ∧ (raw = true → b ≠ 43) ∧ (raw = false → b ≠ 126)) := by
  have hl := urlencode_text_length_le s raw
  refine ⟨_, urlencode_text s raw, urlencode_fits alloc fresh s raw buf pos hdst hroom,
    c_string_at _ _ _ pos (by simp; omega) (urlencode_text_nonzero s raw),
    urlencode_text_output s raw, urlencode_text_percent s raw, ?_⟩
  intro b hb
  exact spec_output_byte_excludes raw b (urlencode_text_output s raw b hb)

/-- Witness of C17: the bytes of `a b~/%+`, a NUL and the byte 200, in raw
    mode, into a block the function allocates. -/
theorem urlencode_alphabet_witness :
    urlencode_start none (some fun _ => 9) [97, 32, 98, 126, 47, 37, 43, 0, 200].length =
        some ((List.range 28).map fun _ => 9, 0) ∧
    0 + (3 * [97, 32, 98, 126, 47, 37, 43, 0, 200].length + 1) ≤
        ((List.range 28).map fun _ => (9 : Byte)).length ∧
    ∃ out text, urlencode none (some fun _ => 9) [97, 32, 98, 126, 47, 37, 43, 0, 200]
        [97, 32, 98, 126, 47, 37, 43, 0, 200].length true = some out ∧
      c_string out 0 = some text ∧
      (∀ b, b ∈ text → spec_output_byte true b = true) ∧
      spec_percent_escapes text ∧
      (∀ b, b ∈ text → b ≠ 32 ∧ b ≠ 38 ∧ b ≠ 61 ∧ b ≠ 63 ∧ b ≠ 35 ∧ b ≠ 47 ∧ b ≠ 0 ∧
        b.val < 128 ∧ (true = true → b ≠ 43) ∧ (true = false → b ≠ 126)) :=
  ⟨by decide, by decide,
    urlencode_alphabet none (some fun _ => 9) [97, 32, 98, 126, 47, 37, 43, 0, 200] true
      ((List.range 28).map fun _ => 9) 0 (by decide) (by decide)⟩

theorem urlencode_text_append (a b : List Byte) (raw : Bool) :
    urlencode_text (a ++ b) raw = urlencode_text a raw ++ urlencode_text b raw := by
  simp [urlencode_text]

/-- The closed form of `urlencode` with room for exactly the text. -/
theorem urlencode_exact (s : List Byte) (raw : Bool) (buf : Buf) (pos : Nat)
    (hroom : pos + ((urlencode_text s raw).length + 1) ≤ buf.length) :
    urlencode (some (buf, pos)) none s s.length raw =
      some (buf.take pos ++ urlencode_text s raw ++
        0 :: buf.drop (pos + ((urlencode_text s raw).length + 1))) := by
  rw [urlencode_eq (some (buf, pos)) none s s.length raw buf pos rfl (by omega) (Nat.le_refl _),
    List.take_length, memcpy_fits _ _ _ (by simp; omega)]
  simp

/-- C20: for all byte sequences `a` and `b` and each mode, in a caller's block
    with room for the worst case, the text `urlencode` returns for `a ++ b` is
    its text for `a` followed by its text for `b`; encoding `b` right where the
    text of `a` ends gives the very block that encoding `a ++ b` gives; and the
    text for the empty sequence is empty. -/
theorem urlencode_append (a b : List Byte) (raw : Bool) (buf : Buf) (pos : Nat)
    (hroom : pos + (3 * (a ++ b).length + 1) ≤ buf.length) :
    ∃ oa ob oab ta tb,
      urlencode (some (buf, pos)) none a a.length raw = some oa ∧ c_string oa pos = some ta ∧
      urlencode (some (buf, pos)) none b b.length raw = some ob ∧ c_string ob pos = some tb ∧
      urlencode (some (buf, pos)) none (a ++ b) (a ++ b).length raw = some oab ∧
      c_string oab pos = some (ta ++ tb) ∧
      urlencode (some (oa, pos + ta.length)) none b b.length raw = some oab ∧
      ∃ o0, urlencode (some (buf, pos)) none [] 0 raw = some o0 ∧ c_string o0 pos = some [] := by
  have hla := urlencode_text_length_le a raw
  have hlb := urlencode_text_length_le b raw
  have hab : (a ++ b).length = a.length + b.length := List.length_append _ _
  have hp : (List.take pos buf).length = pos := by simp; omega
  have ea := urlencode_exact a raw buf pos (by omega)
  have eb := urlencode_exact b raw buf pos (by omega)
  have eab := urlencode_exact (a ++ b) raw buf pos (by
    rw [urlencode_text_append, List.length_append]; omega)
  have e0 := urlencode_exact [] raw buf pos (by
    simp only [urlencode_text, List.flatMap_nil, List.length_nil]; omega)
  refine ⟨_, _, _, urlencode_text a raw, urlencode_text b raw, ea,
    c_string_at _ _ _ pos hp (urlencode_text_nonzero a raw), eb,
    c_string_at _ _ _ pos hp (urlencode_text_nonzero b raw), eab, ?_, ?_, _, e0,
    c_string_at _ _ _ pos hp (urlencode_text_nonzero [] raw)⟩
  · rw [← urlencode_text_append]
    exact c_string_at _ _ _ pos hp (urlencode_text_nonzero (a ++ b) raw)
  · have h1 : memcpy buf pos (urlencode_text a raw ++ [0]) = some
        (List.take pos buf ++ urlencode_text a raw ++
          0 :: List.drop (pos + ((urlencode_text a raw).length + 1)) buf) := by
      rw [memcpy_fits _ _ _ (by simp; omega)]
      simp
    have hl1 := memcpy_length h1
    rw [urlencode_eq (some (_, pos + (urlencode_text a raw).length)) none b b.length raw _ _ rfl
      (by rw [hl1]; omega) (Nat.le_refl _), List.take_length]
    have h2 := memcpy_over_nul buf pos (urlencode_text a raw) 0
    cases hb : urlencode_text b raw ++ [0] with
    | nil => simp at hb
    | cons c0 c =>
      have h3 := h2 c0 c
      rw [h1, Option.some_bind] at h3
      rw [h3, ← hb, ← List.append_assoc, ← urlencode_text_append,
        memcpy_fits _ _ _ (by rw [urlencode_text_append]; simp; omega)]
      simp

/-- Witness of C20: `a b` and `/~` in non-raw mode, at offset 1 of a block of
    20 bytes. -/
theorem urlencode_append_witness :
    1 + (3 * ([97, 32, 98] ++ [47, 126] : List Byte).length + 1) ≤
        (List.replicate 20 (5 : Byte)).length ∧
    ∃ oa ob oab ta tb,
      urlencode (some (List.replicate 20 5, 1)) none [97, 32, 98] [97, 32, 98].length false =
        some oa ∧ c_string oa 1 = some ta ∧
      urlencode (some (List.replicate 20 5, 1)) none [47, 126] [47, 126].length false =
        some ob ∧ c_string ob 1 = some tb ∧
      urlencode (some (List.replicate 20 5, 1)) none ([97, 32, 98] ++ [47, 126])
        ([97, 32, 98] ++ [47, 126] : List Byte).length false = some oab ∧
      c_string oab 1 = some (ta ++ tb) ∧
      urlencode (some (oa, 1 + ta.length)) none [47, 126] [47, 126].length false = some oab ∧
      ∃ o0, urlencode (some (List.replicate 20 5, 1)) none [] 0 false = some o0 ∧
        c_string o0 1 = some [] :=
  ⟨by decide, urlencode_append [97, 32, 98] [47, 126] false (List.replicate 20 5) 1 (by decide)⟩
/-! ## The response buffer: growth and contents -/

theorem realloc_eq (f : Nat → Byte) (old : Option Buf) (n : Nat) :
    realloc (some f) old n = some (((old.getD []) ++ (List.range n).map f).take n) := rfl

/-- The first bytes of a reallocated block are those of the old block. -/
theorem realloc_take (f : Nat → Byte) (r : Buf) (n L : Nat) (hL : L ≤ r.length) (hn : L ≤ n) :
    ((r ++ (List.range n).map f).take n).take L = r.take L := by
  rw [List.take_take, Nat.min_eq_left hn, List.take_append_of_le_length hL]

/-- A call that grows the block once, with room for chunk and terminator in
    the grown block, copies the chunk there. -/
theorem write_callback_growth_fits (f : Nat → Byte) (data : Buf) (size nmemb : Nat)
    (cg : cgtranslate_t) (hdata : size * nmemb ≤ data.length)
    (hgrow : cg.res_alloc ≤ cg.res_len + size * nmemb + 1)
    (hfit : cg.res_len + size * nmemb + 1 ≤ cg.res_alloc * 2 + 1)
    (hcap : cg.res_alloc * 2 + 1 < SIZE_MOD) :
    write_callback (some f) data size nmemb cg =
      some ({ cg with
                res_alloc := cg.res_alloc * 2 + 1,
                res := some
                  ((((cg.res.getD []) ++ (List.range (cg.res_alloc * 2 + 1)).map f).take
                      (cg.res_alloc * 2 + 1)).take cg.res_len ++ data.take (size * nmemb) ++
                    0 :: (((cg.res.getD []) ++ (List.range (cg.res_alloc * 2 + 1)).map f).take
                      (cg.res_alloc * 2 + 1)).drop (cg.res_len + size * nmemb + 1)),
                res_len := cg.res_len + size * nmemb }, size * nmemb) := by
  have h1 : size * nmemb % SIZE_MOD = size * nmemb := Nat.mod_eq_of_lt (by omega)
  have h2 : (cg.res_len + size * nmemb) % SIZE_MOD = cg.res_len + size * nmemb :=
    Nat.mod_eq_of_lt (by omega)
  have h3 : (cg.res_len + size * nmemb + 1) % SIZE_MOD = cg.res_len + size * nmemb + 1 :=
    Nat.mod_eq_of_lt (by omega)
  have h4 : cg.res_len + size * nmemb + 1 ≥ cg.res_alloc := hgrow
  have h5 : (cg.res_alloc * 2 + 1) % SIZE_MOD = cg.res_alloc * 2 + 1 :=
    Nat.mod_eq_of_lt hcap
  simp only [write_callback, h1, h2, h3, h4, h5, if_true, realloc_eq]
  exact write_callback_copy_fits data _ _ _ _ rfl hdata (by
    show cg.res_len + size * nmemb + 1 ≤ _
    simp
    omega)

/-- What a successful copy step has done. -/
theorem write_callback_copy_some (data : Buf) (add_len new_len : Nat)
    (cgx cg1 : cgtranslate_t) (n : Nat) (x : Buf) (hres : cgx.res = some x)
    (h : write_callback_copy data add_len new_len cgx = some (cg1, n)) :
    n = add_len ∧ add_len ≤ data.length ∧ cgx.res_len + add_len + 1 ≤ x.length ∧
      cg1 = { cgx with
                res := some (x.take cgx.res_len ++ data.take add_len ++
                  0 :: x.drop (cgx.res_len + add_len + 1)),
                res_len := new_len } := by
  have hfit : cgx.res_len + add_len + 1 ≤ x.length := by
    rcases Nat.lt_or_ge x.length (cgx.res_len + add_len + 1) with hlt | hge
    · rw [write_callback_copy_overrun data add_len new_len cgx x hres hlt] at h
      cases h
    · exact hge
  have hdata : add_len ≤ data.length := by
    rcases Nat.lt_or_ge data.length add_len with hlt | hge
    · simp only [write_callback_copy, hres, Option.some_bind, Nat.not_le.mpr hlt,
        if_false] at h
      cases h
    · exact hge
  rw [write_callback_copy_fits data add_len new_len cgx x hres hdata hfit] at h
  cases h
  exact ⟨rfl, hdata, hfit, rfl⟩

/-- The block after a chunk has been appended at length `L`. -/
theorem appended_block (x d : List Byte) (L : Nat) (hfit : L + d.length + 1 ≤ x.length) :
    (x.take L ++ d ++ 0 :: x.drop (L + d.length + 1)).take L = x.take L ∧
    ((x.take L ++ d ++ 0 :: x.drop (L + d.length + 1)).drop L).take d.length = d ∧
    (x.take L ++ d ++ 0 :: x.drop (L + d.length + 1))[L + d.length]? = some 0 ∧
    (x.take L ++ d ++ 0 :: x.drop (L + d.length + 1)).length = x.length ∧
    (x.take L ++ d ++ 0 :: x.drop (L + d.length + 1)).take (L + d.length) = x.take L ++ d := by
  have hp : (x.take L).length = L := by simp; omega
  have hq : (x.take L ++ d).length = L + d.length := by simp; omega
  refine ⟨?_, ?_, ?_, ?_, ?_⟩
  · rw [List.append_assoc, take_append_len _ _ _ hp]
  · have := drop_append_len (x.take L) (d ++ 0 :: x.drop (L + d.length + 1)) L 0 hp
    rw [Nat.add_zero, List.drop_zero] at this
    rw [List.append_assoc, this, take_append_len _ _ _ rfl]
  · rw [List.getElem?_append_right (by rw [hq]), hq, Nat.sub_self]
    simp
  · simp
    omega
  · rw [take_append_len _ _ _ hq]

/-- What a successful call of `write_callback` has done, on a block that holds
    the current length, every reallocation succeeding. -/
theorem write_callback_some (f : Nat → Byte) (data : Buf) (size nmemb : Nat)
    (cg cg1 : cgtranslate_t) (n : Nat) (r : Buf) (hres : cg.res = some r)
    (hL : cg.res_len ≤ r.length) (hr : r.length < SIZE_MOD) (ha : size * nmemb < SIZE_MOD)
    (h : write_callback (some f) data size nmemb cg = some (cg1, n)) :
    n = size * nmemb ∧ size * nmemb ≤ data.length ∧
    ∃ r1, cg1.res = some r1 ∧ cg1.res_len = cg.res_len + size * nmemb ∧
      r1.take (cg.res_len + size * nmemb) = r.take cg.res_len ++ data.take (size * nmemb) ∧
      r1[cg.res_len + size * nmemb]? = some 0 ∧
      r1.length < SIZE_MOD ∧ cg.res_len + size * nmemb + 1 ≤ r1.length ∧
      cg1.clear_res = cg.clear_res := by
  have h1 : size * nmemb % SIZE_MOD = size * nmemb := Nat.mod_eq_of_lt ha
  have hd : ∀ d : Buf, size * nmemb ≤ d.length → (d.take (size * nmemb)).length = size * nmemb := by
    intro d hd
    simp
    omega
  have main : ∀ (cgx : cgtranslate_t) (x : Buf),
      write_callback_copy data (size * nmemb) ((cg.res_len + size * nmemb) % SIZE_MOD) cgx =
        some (cg1, n) →
      cgx.res = some x → cgx.res_len = cg.res_len →
      cgx.clear_res = cg.clear_res → x.length < SIZE_MOD → x.take cg.res_len = r.take cg.res_len →
      n = size * nmemb ∧ size * nmemb ≤ data.length ∧
      ∃ r1, cg1.res = some r1 ∧ cg1.res_len = cg.res_len + size * nmemb ∧
        r1.take (cg.res_len + size * nmemb) = r.take cg.res_len ++ data.take (size * nmemb) ∧
        r1[cg.res_len + size * nmemb]? = some 0 ∧
        r1.length < SIZE_MOD ∧ cg.res_len + size * nmemb + 1 ≤ r1.length ∧
        cg1.clear_res = cg.clear_res := by
    intro cgx x hc hx hlen hclr hxl htake
    obtain ⟨e1, e2, e3, e4⟩ := write_callback_copy_some data _ _ cgx cg1 n x hx hc
    rw [hlen] at e3 e4
    have hmod : (cg.res_len + size * nmemb) % SIZE_MOD = cg.res_len + size * nmemb :=
      Nat.mod_eq_of_lt (by omega)
    have hfit : cg.res_len + (data.take (size * nmemb)).length + 1 ≤ x.length := by
      rw [hd data e2]
      exact e3
    obtain ⟨_, _, b3, b4, b5⟩ := appended_block x (data.take (size * nmemb)) cg.res_len hfit
    rw [hd data e2] at b3 b4 b5
    refine ⟨e1, e2, _, by rw [e4], by rw [e4, hmod], ?_, b3, by rw [b4]; exact hxl,
      by rw [b4]; exact e3, by rw [e4]; exact hclr⟩
    rw [b5, htake]
  unfold write_callback at h
  simp only [h1] at h
  split at h
  · rw [realloc_eq] at h
    simp only at h
    have hnl : ((cg.res.getD [] ++ (List.range ((cg.res_alloc * 2 + 1) % SIZE_MOD)).map f).take
        ((cg.res_alloc * 2 + 1) % SIZE_MOD)).length = (cg.res_alloc * 2 + 1) % SIZE_MOD := by
      simp
    refine main _ _ h rfl rfl rfl (by rw [hnl]; exact Nat.mod_lt _ (by decide)) ?_
    rcases Nat.lt_or_ge ((cg.res_alloc * 2 + 1) % SIZE_MOD) cg.res_len with hlt | hge
    · -- the grown block would be shorter than the length: the copy cannot have succeeded
      obtain ⟨_, _, e3, _⟩ := write_callback_copy_some data _ _ _ cg1 n _ rfl h
      rw [hnl] at e3
      exact absurd e3 (by show ¬ cg.res_len + size * nmemb + 1 ≤ _; omega)
    · rw [hres]
      exact realloc_take f r _ _ hL hge
  · exact main cg r h hres rfl rfl hr rfl

theorem delivered_cons (c : Call) (rest : List Call) :
    delivered (c :: rest) = c.data.take (c.size * c.nmemb) ++ delivered rest := by
  simp [delivered]

/-- When every call of a transfer succeeds, the block holds, after the bytes
    it held before, the chunks in the order of their delivery. -/
theorem curl_easy_perform_delivers (cres : Nat) (calls : List Call) :
    ∀ (cg cgN : cgtranslate_t) (code : Nat) (r : Buf), cg.res = some r →
      cg.res_len ≤ r.length → r.length < SIZE_MOD →
      (∀ c, c ∈ calls → c.size * c.nmemb < SIZE_MOD ∧ ∃ f, c.fresh = some f) →
      curl_easy_perform cres calls cg = some (cgN, code) →
      code = cres ∧ ∃ rN, cgN.res = some rN ∧
        cgN.res_len = cg.res_len + (delivered calls).length ∧
        rN.take cgN.res_len = r.take cg.res_len ++ delivered calls ∧
        cgN.res_len ≤ rN.length ∧ (calls ≠ [] → rN[cgN.res_len]? = some 0) := by
  induction calls with
  | nil =>
    intro cg cgN code r hres hL _ _ h
    simp only [curl_easy_perform, Option.some.injEq, Prod.mk.injEq] at h
    obtain ⟨h1, h2⟩ := h
    subst h1
    exact ⟨h2.symm, r, hres, by simp [delivered], by simp [delivered], hL,
      fun hne => absurd rfl hne⟩
  | cons c rest ih =>
    intro cg cgN code r hres hL hr hall h
    obtain ⟨hsz, f, hf⟩ := hall c (List.mem_cons_self _ _)
    rw [curl_easy_perform, hf] at h
    cases hw : write_callback (some f) c.data c.size c.nmemb cg with
    | none => rw [hw] at h; cases h
    | some res1 =>
      obtain ⟨cg1, n⟩ := res1
      obtain ⟨e1, e2, r1, g1, g2, g3, g4, g5, g6, _⟩ :=
        write_callback_some f c.data c.size c.nmemb cg cg1 n r hres hL hr hsz hw
      rw [hw, Option.some_bind] at h
      simp only [e1, if_true] at h
      have hd : (c.data.take (c.size * c.nmemb)).length = c.size * c.nmemb := by
        simp
        omega
      obtain ⟨k1, rN, k2, k3, k4, k5, k6⟩ := ih cg1 cgN code r1 g1 (by omega) g5
        (fun c2 hc2 => hall c2 (List.mem_cons_of_mem _ hc2)) h
      refine ⟨k1, rN, k2, ?_, ?_, k5, ?_⟩
      · rw [k3, g2, delivered_cons, List.length_append, hd]
        omega
      · rw [k4, g2, g3, delivered_cons, List.append_assoc]
      · intro _
        cases rest with
        | nil =>
          simp only [curl_easy_perform, Option.some.injEq, Prod.mk.injEq] at h
          obtain ⟨h1, _⟩ := h
          subst h1
          rw [g1] at k2
          cases k2
          rw [g2]
          exact g4
        | cons c2 rest2 => exact k6 (List.cons_ne_nil _ _)

/-- C14: for every response block that holds the current length `L` and every
    chunk of `a = size * nmemb` bytes for which the capacity, grown once if the
    growth test fires, has room for `L + a + 1` bytes, with the reallocation
    succeeding, `write_callback` returns `a`, leaves the first `L` bytes as they
    were, stores the chunk at `L .. L + a - 1` and a NUL at `L + a`, and sets
    `res_len = L + a`.  And whenever all calls of a transfer from length 0 have
    succeeded, the first `res_len` bytes are the chunks in delivery order. -/
theorem write_callback_appends (fresh : Option (Nat → Byte)) (data : Buf) (size nmemb : Nat)
    (cg : cgtranslate_t) (res : Buf) (hres : cg.res = some res)
    (hL : cg.res_len ≤ res.length) (hdata : size * nmemb ≤ data.length)
    (hcap : cg.res_alloc * 2 + 1 < SIZE_MOD)
    (hfit : (cg.res_len + size * nmemb + 1 < cg.res_alloc ∧ cg.res_alloc ≤ res.length) ∨
      (cg.res_alloc ≤ cg.res_len + size * nmemb + 1 ∧
        cg.res_len + size * nmemb + 1 ≤ cg.res_alloc * 2 + 1 ∧ ∃ f, fresh = some f)) :
    (∃ cg1 r1, write_callback fresh data size nmemb cg = some (cg1, size * nmemb) ∧
      cg1.res = some r1 ∧ cg1.res_len = cg.res_len + size * nmemb ∧
      r1.take cg.res_len = res.take cg.res_len ∧
      (r1.drop cg.res_len).take (size * nmemb) = data.take (size * nmemb) ∧
      r1[cg.res_len + size * nmemb]? = some 0) ∧
    (∀ (cres : Nat) (calls : List Call) (cgN : cgtranslate_t) (code : Nat),
      cg.res_len = 0 → res.length < SIZE_MOD →
      (∀ c, c ∈ calls → c.size * c.nmemb < SIZE_MOD ∧ ∃ f, c.fresh = some f) →
      curl_easy_perform cres calls cg = some (cgN, code) →
      ∃ rN, cgN.res = some rN ∧ cgN.res_len = (delivered calls).length ∧
        rN.take cgN.res_len = delivered calls) := by
  have hd : (data.take (size * nmemb)).length = size * nmemb := by
    simp
    omega
  constructor
  · rcases hfit with ⟨h1, h2⟩ | ⟨h1, h2, f, hf⟩
    · have hfit2 : cg.res_len + (data.take (size * nmemb)).length + 1 ≤ res.length := by
        rw [hd]; omega
      obtain ⟨b1, b2, b3, _, _⟩ := appended_block res (data.take (size * nmemb)) cg.res_len hfit2
      rw [hd] at b1 b2 b3
      exact ⟨_, _, write_callback_no_growth fresh data size nmemb cg res hres hdata h1 h2
        (by omega), rfl, rfl, b1, b2, b3⟩
    · subst hf
      have hnl : ((cg.res.getD [] ++ (List.range (cg.res_alloc * 2 + 1)).map f).take
          (cg.res_alloc * 2 + 1)).length = cg.res_alloc * 2 + 1 := by
        simp
      have hfit2 : cg.res_len + (data.take (size * nmemb)).length + 1 ≤
          ((cg.res.getD [] ++ (List.range (cg.res_alloc * 2 + 1)).map f).take
            (cg.res_alloc * 2 + 1)).length := by
        rw [hd, hnl]; exact h2
      obtain ⟨b1, b2, b3, _, _⟩ := appended_block _ (data.take (size * nmemb)) cg.res_len hfit2
      rw [hd] at b1 b2 b3
      refine ⟨_, _, write_callback_growth_fits f data size nmemb cg hdata h1 h2 hcap, rfl, rfl,
        ?_, b2, b3⟩
      rw [b1, hres]
      exact realloc_take f res _ _ hL (by omega)
  · intro cres calls cgN code h0 hr hall hp
    obtain ⟨_, rN, k1, k2, k3, _, _⟩ :=
      curl_easy_perform_delivers cres calls cg cgN code res hres hL hr hall hp
    rw [h0] at k2 k3
    exact ⟨rN, k1, by simpa using k2, by simpa using k3⟩

/-- Witness of C14: three bytes appended at length 20 of a 63-byte block, and
    the chunks `ab`, `cde` delivered to that block from length 0. -/
theorem write_callback_appends_witness :
    hello_session.res = some (List.replicate 63 0) ∧
    hello_session.res_len ≤ (List.replicate 63 (0 : Byte)).length ∧
    (∃ cg1 r1, write_callback none (lit "abc") 1 3 hello_session = some (cg1, 1 * 3) ∧
      cg1.res = some r1 ∧ cg1.res_len = hello_session.res_len + 1 * 3 ∧
      r1.take hello_session.res_len = (List.replicate 63 0).take hello_session.res_len ∧
      (r1.drop hello_session.res_len).take (1 * 3) = (lit "abc").take (1 * 3) ∧
      r1[hello_session.res_len + 1 * 3]? = some 0) ∧
    curl_easy_perform 0 [⟨lit "ab", 1, 2, some fun _ => 1⟩, ⟨lit "cde", 1, 3, some fun _ => 1⟩]
        { hello_session with res_len := 0 } =
      some ({ hello_session with
                res_len := 5, res := some (lit "abcde" ++ List.replicate 58 0) }, 0) ∧
    ∃ rN, ({ hello_session with
              res_len := 5, res := some (lit "abcde" ++ List.replicate 58 0) } :
            cgtranslate_t).res = some rN ∧
      ({ hello_session with
              res_len := 5, res := some (lit "abcde" ++ List.replicate 58 0) } :
            cgtranslate_t).res_len =
        (delivered [⟨lit "ab", 1, 2, some fun _ => 1⟩,
          ⟨lit "cde", 1, 3, some fun _ => 1⟩]).length ∧
      rN.take ({ hello_session with
              res_len := 5, res := some (lit "abcde" ++ List.replicate 58 0) } :
            cgtranslate_t).res_len =
        delivered [⟨lit "ab", 1, 2, some fun _ => 1⟩, ⟨lit "cde", 1, 3, some fun _ => 1⟩] :=
  ⟨rfl, by decide,
    (write_callback_appends none (lit "abc") 1 3 hello_session (List.replicate 63 0) rfl
      (by decide) (by decide) (by decide) (Or.inl ⟨by decide, by decide⟩)).1,
    by decide,
    (write_callback_appends none [] 0 0 { hello_session with res_len := 0 }
      (List.replicate 63 0) rfl (by decide) (by decide) (by decide)
      (Or.inl ⟨by decide, by decide⟩)).2 0
      [⟨lit "ab", 1, 2, some fun _ => 1⟩, ⟨lit "cde", 1, 3, some fun _ => 1⟩] _ 0 rfl
      (by decide) (by
        intro c hc
        simp only [List.mem_cons, List.mem_singleton, List.not_mem_nil, or_false] at hc
        rcases hc with rfl | rfl
        · exact ⟨by decide, _, rfl⟩
        · exact ⟨by decide, _, rfl⟩) (by decide)⟩

/-- One successful call on a block whose size is the stored capacity, for a
    chunk not larger than the capacity. -/
theorem write_callback_step (f : Nat → Byte) (data : Buf) (size nmemb : Nat)
    (cg : cgtranslate_t) (res : Buf) (hres : cg.res = some res)
    (hblock : res.length = cg.res_alloc) (hinv : cg.res_len + 1 ≤ cg.res_alloc)
    (hchunk : size * nmemb ≤ cg.res_alloc) (hdata : size * nmemb ≤ data.length)
    (hcap : cg.res_alloc * 2 + 1 < SIZE_MOD) :
    ∃ cg1 r1, write_callback (some f) data size nmemb cg = some (cg1, size * nmemb) ∧
      cg1.res = some r1 ∧ r1.length = cg1.res_alloc ∧
      cg1.res_len = cg.res_len + size * nmemb ∧ cg1.res_len + 1 ≤ cg1.res_alloc ∧
      cg.res_alloc ≤ cg1.res_alloc ∧
      (cg1.res_alloc = cg.res_alloc ∨
        (cg1.res_alloc = cg.res_alloc * 2 + 1 ∧ cg.res_alloc ≤ cg.res_len + size * nmemb + 1)) := by
  have hd : (data.take (size * nmemb)).length = size * nmemb := by
    simp
    omega
  rcases Nat.lt_or_ge (cg.res_len + size * nmemb + 1) cg.res_alloc with h | h
  · have hfit2 : cg.res_len + (data.take (size * nmemb)).length + 1 ≤ res.length := by
      rw [hd]; omega
    obtain ⟨_, _, _, b4, _⟩ := appended_block res (data.take (size * nmemb)) cg.res_len hfit2
    rw [hd] at b4
    exact ⟨_, _, write_callback_no_growth (some f) data size nmemb cg res hres hdata h
      (by omega) (by omega), rfl, by rw [b4]; exact hblock, rfl,
      by show cg.res_len + size * nmemb + 1 ≤ cg.res_alloc; omega, Nat.le_refl _, Or.inl rfl⟩
  · have hnl : ((cg.res.getD [] ++ (List.range (cg.res_alloc * 2 + 1)).map f).take
        (cg.res_alloc * 2 + 1)).length = cg.res_alloc * 2 + 1 := by
      simp
    have hfit2 : cg.res_len + (data.take (size * nmemb)).length + 1 ≤
        ((cg.res.getD [] ++ (List.range (cg.res_alloc * 2 + 1)).map f).take
          (cg.res_alloc * 2 + 1)).length := by
      rw [hd, hnl]; omega
    obtain ⟨_, _, _, b4, _⟩ := appended_block _ (data.take (size * nmemb)) cg.res_len hfit2
    rw [hd] at b4
    exact ⟨_, _, write_callback_growth_fits f data size nmemb cg hdata h (by omega) hcap,
      rfl, by rw [b4, hnl], rfl,
      by show cg.res_len + size * nmemb + 1 ≤ cg.res_alloc * 2 + 1; omega,
      by show cg.res_alloc ≤ cg.res_alloc * 2 + 1; omega, Or.inr ⟨rfl, h⟩⟩

/-- Chunks of at most 8192 bytes, every reallocation succeeding: from a block
    of at least 8192 bytes whose size is the stored capacity, every call
    succeeds and the capacity stays above the length. -/
theorem curl_easy_perform_small_chunks (cres : Nat) (calls : List Call) :
    ∀ (cg : cgtranslate_t) (r : Buf), cg.res = some r → r.length = cg.res_alloc →
      cg.res_len + 1 ≤ cg.res_alloc → 8192 ≤ cg.res_alloc →
      cg.res_alloc ≤ 2 * cg.res_len + 8193 →
      (∀ c, c ∈ calls → c.size * c.nmemb ≤ 8192 ∧ c.size * c.nmemb ≤ c.data.length ∧
        ∃ f, c.fresh = some f) →
      4 * (cg.res_len + (delivered calls).length) + 16387 < SIZE_MOD →
      ∃ cgN rN, curl_easy_perform cres calls cg = some (cgN, cres) ∧ cgN.res = some rN ∧
        rN.length = cgN.res_alloc ∧ cgN.res_len = cg.res_len + (delivered calls).length ∧
        cgN.res_len + 1 ≤ cgN.res_alloc := by
  induction calls with
  | nil =>
    intro cg r hres hblock hinv _ _ _ _
    exact ⟨cg, r, rfl, hres, hblock, by simp [delivered], hinv⟩
  | cons c rest ih =>
    intro cg r hres hblock hinv h8 hbound hall htot
    obtain ⟨hc1, hc2, f, hf⟩ := hall c (List.mem_cons_self _ _)
    have hd : (c.data.take (c.size * c.nmemb)).length = c.size * c.nmemb := by
      simp
      omega
    rw [delivered_cons, List.length_append, hd] at htot
    obtain ⟨cg1, r1, s1, s2, s3, s4, s5, s6, s7⟩ :=
      write_callback_step f c.data c.size c.nmemb cg r hres hblock hinv (by omega) hc2
        (by omega)
    have hb1 : cg1.res_alloc ≤ 2 * cg1.res_len + 8193 := by
      rcases s7 with e | ⟨e, e2⟩
      · rw [e, s4]; omega
      · rw [e, s4]; omega
    obtain ⟨cgN, rN, k1, k2, k3, k4, k5⟩ := ih cg1 r1 s2 s3 s5 (by omega) hb1
      (fun c2 hc2 => hall c2 (List.mem_cons_of_mem _ hc2)) (by rw [s4]; omega)
    refine ⟨cgN, rN, ?_, k2, k3, ?_, k5⟩
    · rw [curl_easy_perform, hf, s1, Option.some_bind]
      simp only [if_true]
      exact k1
    · rw [k4, s4, delivered_cons, List.length_append, hd]
      omega

/-! ## The response buffer: the growth test -/

/-- C13 fails as stated: at length 0 and capacity 8192, a chunk of 8191 bytes
    has `length + added + 1 = capacity`, and `write_callback` still
    reallocates: the capacity becomes 16385. -/
theorem write_callback_grows_at_equality :
    (fresh_response junk_session fun _ => 0).res_len + 1 * 8191 + 1 ≤
      (fresh_response junk_session fun _ => 0).res_alloc ∧
    ∃ cg1, write_callback (some fun _ => 0) (List.replicate 8191 65) 1 8191
        (fresh_response junk_session fun _ => 0) = some (cg1, 1 * 8191) ∧
      cg1.res_alloc = 16385 :=
  ⟨show 0 + 1 * 8191 + 1 ≤ 8192 by decide, _,
    write_callback_growth_fits (fun _ => 0) (List.replicate 8191 65) 1 8191
      (fresh_response junk_session fun _ => 0) (by rw [List.length_replicate])
      (show 8192 ≤ 0 + 1 * 8191 + 1 by decide)
      (show 0 + 1 * 8191 + 1 ≤ 8192 * 2 + 1 by decide)
      (show 8192 * 2 + 1 < SIZE_MOD by decide),
    show 8192 * 2 + 1 = 16385 by decide⟩

/-- C13 as amended: on a block at least as large as the stored capacity,
    `write_callback` leaves the capacity unchanged whenever
    `length + added + 1 < capacity` and reallocates exactly when
    `length + added + 1 ≥ capacity` (a failing `realloc` is then reported by the
    return value 0); when it reallocates and one doubling suffices, the new
    capacity is exactly `capacity * 2 + 1`. -/
theorem write_callback_growth_policy (fresh : Option (Nat → Byte)) (f : Nat → Byte)
    (data : Buf) (size nmemb : Nat) (cg : cgtranslate_t) (res : Buf)
    (hres : cg.res = some res) (hblock : cg.res_alloc ≤ res.length)
    (hdata : size * nmemb ≤ data.length)
    (hsz : cg.res_len + size * nmemb + 1 < SIZE_MOD)
    (hcap : cg.res_alloc * 2 + 1 < SIZE_MOD) :
    (cg.res_len + size * nmemb + 1 < cg.res_alloc →
      ∃ cg1, write_callback fresh data size nmemb cg = some (cg1, size * nmemb) ∧
        cg1.res_alloc = cg.res_alloc) ∧
    (cg.res_alloc ≤ cg.res_len + size * nmemb + 1 →
      write_callback none data size nmemb cg =
        some ({ cg with res_alloc := cg.res_alloc * 2 + 1 }, 0) ∧
      (cg.res_len + size * nmemb + 1 ≤ cg.res_alloc * 2 + 1 →
        ∃ cg1, write_callback (some f) data size nmemb cg = some (cg1, size * nmemb) ∧
          cg1.res_alloc = cg.res_alloc * 2 + 1)) := by
  refine ⟨fun h => ⟨_, write_callback_no_growth fresh data size nmemb cg res hres hdata h
    hblock (by omega), rfl⟩, fun h => ⟨?_, fun h2 =>
      ⟨_, write_callback_growth_fits f data size nmemb cg hdata h h2 hcap, rfl⟩⟩⟩
  have h1 : size * nmemb % SIZE_MOD = size * nmemb := Nat.mod_eq_of_lt (by omega)
  have h2 : (cg.res_len + size * nmemb) % SIZE_MOD = cg.res_len + size * nmemb :=
    Nat.mod_eq_of_lt (by omega)
  have h3 : (cg.res_len + size * nmemb + 1) % SIZE_MOD = cg.res_len + size * nmemb + 1 :=
    Nat.mod_eq_of_lt hsz
  rw [write_callback_realloc_fails data size nmemb cg (by rw [h1, h2, h3]; exact h),
    Nat.mod_eq_of_lt hcap]

/-- Witness of C13: in a 63-byte block of capacity 63 at length 20, a chunk of
    3 bytes leaves the capacity, and a chunk of 42 bytes (`20 + 42 + 1 = 63`)
    makes it 127. -/
theorem write_callback_growth_policy_witness :
    hello_session.res = some (List.replicate 63 0) ∧
    (∃ cg1, write_callback none (lit "abc") 1 3 hello_session = some (cg1, 1 * 3) ∧
      cg1.res_alloc = hello_session.res_alloc) ∧
    (∃ cg1, write_callback (some fun _ => 7) (List.replicate 42 65) 1 42 hello_session =
        some (cg1, 1 * 42) ∧ cg1.res_alloc = hello_session.res_alloc * 2 + 1) :=
  ⟨rfl,
    (write_callback_growth_policy none (fun _ => 7) (lit "abc") 1 3 hello_session
      (List.replicate 63 0) rfl (by decide) (by decide) (by decide) (by decide)).1 (by decide),
    ((write_callback_growth_policy none (fun _ => 7) (List.replicate 42 65) 1 42 hello_session
      (List.replicate 63 0) rfl (by decide) (by decide) (by decide) (by decide)).2
        (by decide)).2 (by decide)⟩

/-! ## The response buffer: the invariant under bounded chunks -/

/-- C18: for every response block whose size is the stored capacity, with
    `capacity ≥ length + 1`, and every chunk of at most `capacity` bytes, a call
    of `write_callback` whose reallocation (if any) succeeds stays inside the
    block, returns the chunk size and leaves `capacity ≥ length + 1` again, the
    capacity never shrinking.  In particular, from the fresh 8192-byte block of
    `cgtr_execute`, every sequence of chunks of at most 8192 bytes is appended
    without leaving the block, and ends with `res_len` the number of bytes
    delivered, `res_alloc ≥ res_len + 1` and the chunks in order in the block. -/
theorem write_callback_keeps_invariant (f : Nat → Byte) (data : Buf) (size nmemb : Nat)
    (cg : cgtranslate_t) (res : Buf) (hres : cg.res = some res)
    (hblock : res.length = cg.res_alloc) (hinv : cg.res_len + 1 ≤ cg.res_alloc)
    (hchunk : size * nmemb ≤ cg.res_alloc) (hdata : size * nmemb ≤ data.length)
    (hcap : cg.res_alloc * 2 + 1 < SIZE_MOD) :
    (∃ cg1 r1, write_callback (some f) data size nmemb cg = some (cg1, size * nmemb) ∧
      cg1.res = some r1 ∧ r1.length = cg1.res_alloc ∧
      cg1.res_len = cg.res_len + size * nmemb ∧ cg1.res_len + 1 ≤ cg1.res_alloc ∧
      cg.res_alloc ≤ cg1.res_alloc) ∧
    (∀ (cres : Nat) (calls : List Call) (cg0 : cgtranslate_t) (g : Nat → Byte),
      (∀ c, c ∈ calls → c.size * c.nmemb ≤ 8192 ∧ c.size * c.nmemb ≤ c.data.length ∧
        ∃ f, c.fresh = some f) →
      4 * (delivered calls).length + 16387 < SIZE_MOD →
      ∃ cgN rN, curl_easy_perform cres calls (fresh_response cg0 g) = some (cgN, cres) ∧
        cgN.res = some rN ∧ rN.length = cgN.res_alloc ∧
        cgN.res_len = (delivered calls).length ∧ cgN.res_len + 1 ≤ cgN.res_alloc ∧
        rN.take cgN.res_len = delivered calls) := by
  constructor
  · obtain ⟨cg1, r1, s1, s2, s3, s4, s5, s6, _⟩ :=
      write_callback_step f data size nmemb cg res hres hblock hinv hchunk hdata hcap
    exact ⟨cg1, r1, s1, s2, s3, s4, s5, s6⟩
  · intro cres calls cg0 g hall htot
    obtain ⟨b, hb, hbl⟩ := malloc_length g 8192
    have hM : (8192 : Nat) < SIZE_MOD := by decide
    obtain ⟨cgN, rN, k1, k2, k3, k4, k5⟩ :=
      curl_easy_perform_small_chunks cres calls (fresh_response cg0 g) b hb hbl
        (show 0 + 1 ≤ 8192 by decide) (show 8192 ≤ 8192 by decide)
        (show 8192 ≤ 2 * 0 + 8193 by decide) hall
        (show 4 * (0 + (delivered calls).length) + 16387 < SIZE_MOD by omega)
    obtain ⟨_, rN2, d1, d2, d3, _, _⟩ :=
      curl_easy_perform_delivers cres calls (fresh_response cg0 g) cgN cres b hb
        (show 0 ≤ b.length from Nat.zero_le _) (by rw [hbl]; exact hM)
        (fun c hc => ⟨by have := (hall c hc).1; omega, (hall c hc).2.2⟩) k1
    rw [k2] at d1
    cases d1
    refine ⟨cgN, rN, k1, k2, k3, ?_, k5, ?_⟩
    · rw [k4]
      show 0 + _ = _
      omega
    · rw [d3]
      show List.take 0 b ++ _ = _
      simp

/-- Witness of C18: a chunk of 42 bytes at length 20 of a 63-byte block of
    capacity 63, and the chunks `ab`, `cde` from the fresh 8192-byte block. -/
theorem write_callback_keeps_invariant_witness :
    hello_session.res = some (List.replicate 63 0) ∧
    (List.replicate 63 (0 : Byte)).length = hello_session.res_alloc ∧
    hello_session.res_len + 1 ≤ hello_session.res_alloc ∧
    1 * 42 ≤ hello_session.res_alloc ∧
    (∃ cg1 r1, write_callback (some fun _ => 7) (List.replicate 42 65) 1 42 hello_session =
        some (cg1, 1 * 42) ∧
      cg1.res = some r1 ∧ r1.length = cg1.res_alloc ∧
      cg1.res_len = hello_session.res_len + 1 * 42 ∧ cg1.res_len + 1 ≤ cg1.res_alloc ∧
      hello_session.res_alloc ≤ cg1.res_alloc) ∧
    ∃ cgN rN, curl_easy_perform 0
        [⟨lit "ab", 1, 2, some fun _ => 1⟩, ⟨lit "cde", 1, 3, some fun _ => 1⟩]
        (fresh_response junk_session fun _ => 9) = some (cgN, 0) ∧
      cgN.res = some rN ∧ rN.length = cgN.res_alloc ∧
      cgN.res_len =
        (delivered [⟨lit "ab", 1, 2, some fun _ => 1⟩,
          ⟨lit "cde", 1, 3, some fun _ => 1⟩]).length ∧
      cgN.res_len + 1 ≤ cgN.res_alloc ∧
      rN.take cgN.res_len =
        delivered [⟨lit "ab", 1, 2, some fun _ => 1⟩, ⟨lit "cde", 1, 3, some fun _ => 1⟩] :=
  ⟨rfl, by decide, by decide, by decide,
    (write_callback_keeps_invariant (fun _ => 7) (List.replicate 42 65) 1 42 hello_session
      (List.replicate 63 0) rfl (by decide) (by decide) (by decide) (by decide)
      (by decide)).1,
    (write_callback_keeps_invariant (fun _ => 7) (List.replicate 42 65) 1 42 hello_session
      (List.replicate 63 0) rfl (by decide) (by decide) (by decide) (by decide)
      (by decide)).2 0
      [⟨lit "ab", 1, 2, some fun _ => 1⟩, ⟨lit "cde", 1, 3, some fun _ => 1⟩] junk_session
      (fun _ => 9) (by
        intro c hc
        simp only [List.mem_cons, List.mem_singleton, List.not_mem_nil, or_false] at hc
        rcases hc with rfl | rfl
        · exact ⟨by decide, by decide, _, rfl⟩
        · exact ⟨by decide, by decide, _, rfl⟩) (by decide)⟩

/-! ## The URL builder: the size of the block -/

theorem spec_url_length (f t x : List Byte) :
    (spec_url f t x).length = 47 + (urlencode_text f false).length +
      (urlencode_text t false).length + (urlencode_text x false).length := by
  have hP : (lit "https://translate.google.com/m?sl=").length = 34 := by decide
  have hA : (lit "&tl=").length = 4 := by decide
  have hH : (lit "&hl=en&q=").length = 9 := by decide
  simp only [spec_url, List.length_append, hP, hA, hH]
  omega

theorem spec_url_nonzero (f t x : List Byte) :
    (spec_url f t x).all (fun b => b != 0) = true := by
  have hP : (lit "https://translate.google.com/m?sl=").all (fun b => b != 0) = true := by decide
  have hA : (lit "&tl=").all (fun b => b != 0) = true := by decide
  have hH : (lit "&hl=en&q=").all (fun b => b != 0) = true := by decide
  simp only [spec_url, List.all_append, hP, hA, hH, urlencode_text_nonzero, Bool.and_self]

/-- C15: for every session whose language fields hold NUL-free strings of at
    most 7 bytes and whose text has `n = text_len` bytes, the URL with its
    terminating NUL has at most `n * 3 + 512` bytes, and `build_url` stays
    inside the block of `n * 3 + 512` bytes that `cgtr_execute` allocates: it
    succeeds there and leaves the URL as the C string at the start. -/
theorem build_url_within (g : Nat → Byte) (cg : cgtranslate_t) (url : Buf)
    (f fr t tr : List Byte)
    (hfrom : cg.from_ = f ++ 0 :: fr) (hf : f.all (fun b => b != 0) = true)
    (hto : cg.to_ = t ++ 0 :: tr) (ht : t.all (fun b => b != 0) = true)
    (hf7 : f.length ≤ 7) (ht7 : t.length ≤ 7) (htext : cg.text_len ≤ cg.text.length)
    (hsz : cg.text_len * 3 + 512 < SIZE_MOD)
    (hurl : malloc (some g) ((cg.text_len * 3 + 512) % SIZE_MOD) = some url) :
    url.length = cg.text_len * 3 + 512 ∧
    (spec_url f t (cg.text.take cg.text_len)).length + 1 ≤ cg.text_len * 3 + 512 ∧
    ∃ out, build_url cg url = some out ∧ out.length = url.length ∧
      c_string out 0 = some (spec_url f t (cg.text.take cg.text_len)) := by
  have hlf := urlencode_text_length_le f false
  have hlt := urlencode_text_length_le t false
  have hlx := urlencode_text_length_le (cg.text.take cg.text_len) false
  have htl : (cg.text.take cg.text_len).length = cg.text_len := by
    simp
    omega
  have hul : url.length = cg.text_len * 3 + 512 := by
    rw [Nat.mod_eq_of_lt hsz] at hurl
    obtain ⟨b, hb, hbl⟩ := malloc_length g (cg.text_len * 3 + 512)
    rw [hb] at hurl
    cases hurl
    exact hbl
  have hlen := spec_url_length f t (cg.text.take cg.text_len)
  have hroom : (spec_url f t (cg.text.take cg.text_len)).length + 1 ≤ url.length := by
    rw [hul, hlen]
    omega
  refine ⟨hul, by rw [← hul]; exact hroom, _,
    build_url_closed cg url f fr t tr hfrom hf hto ht htext hroom, ?_, ?_⟩
  · simp
    omega
  · have := c_string_at [] (spec_url f t (cg.text.take cg.text_len))
      (url.drop ((spec_url f t (cg.text.take cg.text_len)).length + 1)) 0 rfl
      (spec_url_nonzero _ _ _)
    simpa using this

/-- Witness of C15: the session of `main.c`, whose URL block has
    `12 * 3 + 512` bytes. -/
theorem build_url_within_witness :
    ∃ cg, main_session = some cg ∧
      cg.from_ = lit "en" ++ 0 :: List.replicate 5 0 ∧
      cg.to_ = lit "ja" ++ 0 :: List.replicate 5 0 ∧
      cg.text_len = 12 ∧
      ((List.range 548).map fun _ => (7 : Byte)).length = cg.text_len * 3 + 512 ∧
      (spec_url (lit "en") (lit "ja") (cg.text.take cg.text_len)).length + 1 ≤
        cg.text_len * 3 + 512 ∧
      ∃ out, build_url cg ((List.range 548).map fun _ => 7) = some out ∧
        out.length = ((List.range 548).map fun _ => (7 : Byte)).length ∧
        c_string out 0 = some (spec_url (lit "en") (lit "ja") (cg.text.take cg.text_len)) :=
  ⟨_, rfl, by decide, by decide, by decide,
    build_url_within (fun _ => 7) _ ((List.range 548).map fun _ => 7) (lit "en")
      (List.replicate 5 0) (lit "ja") (List.replicate 5 0) (by decide) (by decide) (by decide)
      (by decide) (by decide) (by decide) (by decide) (by decide) (by decide)⟩

/-! ## The extraction: no read after the terminator -/

/-- The scan does not look at bytes after index `max`. -/
theorem scan_tag_take (max : Nat) :
    ∀ (l : List Byte) (i j : Nat), i ≤ max →
      scan_tag max (l.take (max - i + 1)) i j = scan_tag max l i j := by
  intro l
  induction l with
  | nil => intro i j _; rfl
  | cons c rest ih =>
    intro i j hi
    rw [List.take_succ_cons]
    by_cases hc : c = 60
    · simp only [scan_tag, hc, if_true]
    · by_cases hm : i ≥ max
      · simp only [scan_tag, hc, hm, if_true, if_false]
      · have e : max - i = max - (i + 1) + 1 := by omega
        simp only [scan_tag, hc, hm, if_false]
        rw [e]
        exact ih (i + 1) (j + 1) (by omega)

/-- The C string of a block that has a NUL at index `n` is the C string of its
    first `n + 1` bytes. -/
theorem takeWhile_take (res : Buf) (n : Nat) (hnul : res[n]? = some 0) :
    (res.take (n + 1)).takeWhile (fun b => b != 0) = res.takeWhile fun b => b != 0 := by
  obtain ⟨s, rest, h1, h2, h3⟩ := c_string_of_nul res n hnul
  have e : n + 1 = s.length + ((n - s.length) + 1) := by omega
  rw [h1, e, List.take_append, List.take_succ_cons, takeWhile_nonzero s _ h2,
    takeWhile_nonzero s _ h2]

/-- The scan met `<` at index `e` and the result cannot be allocated: the
    previous result has been freed and the call returns `-ENOMEM`. -/
theorem parse_response_tag_nomem (cg : cgtranslate_t) (res : Buf) (k e : Nat)
    (hres : cg.res = some res) (hnul : res[cg.res_len]? = some 0)
    (hk : find_sub find (res.takeWhile fun b => b != 0) = some k)
    (hme : k + find.length ≤ e) (hen : e < cg.res_len)
    (hscan : scan_tag cg.res_len (res.drop (k + find.length)) (k + find.length) 0 =
      .found (e - (k + find.length))) :
    parse_response none cg =
      some ({ cg with res := some (res.take e ++ 0 :: res.drop (e + 1)),
                      clear_res := cg.clear_res.free, error_str := .strerror 12 },
        -ENOMEM) := by
  have hn : cg.res_len < res.length := by
    rcases Nat.lt_or_ge cg.res_len res.length with h | h
    · exact h
    · rw [List.getElem?_eq_none h] at hnul
      cases hnul
  generalize hm : k + find.length = m at *
  have hpe : m + (e - m) = e := by omega
  have hst : store res e 0 = some (res.take e ++ 0 :: res.drop (e + 1)) := by
    rw [store_eq_memcpy, memcpy_fits res e [0] (by simp; omega)]
    simp
  simp only [parse_response, hres, Option.some_bind, (strstr_of_nul res _ hnul).1, hk, hm,
    hscan, hpe, hst, malloc, Option.map_none']

/-- C16: for every response block that is NUL-terminated at index `n = res_len`,
    `parse_response` run on the first `n + 1` bytes alone (a block in which
    every access after index `n` is out of bounds) returns, so neither the marker
    search nor the scan for `<` examines a byte after index `n` and the scan
    ends; the return value, the stored result and the message are those of the
    run on the whole block; and when no `<` lies between the end of the first
    marker and index `n`, the call fails with "result not found". -/
theorem parse_response_reads_within (fresh : Option (Nat → Byte)) (cg : cgtranslate_t)
    (res : Buf) (hres : cg.res = some res) (hnul : res[cg.res_len]? = some 0)
    (hsz : cg.res_len < SIZE_MOD) :
    ∃ cg1 cg2 ret,
      parse_response fresh { cg with res := some (res.take (cg.res_len + 1)) } =
        some (cg1, ret) ∧
      parse_response fresh cg = some (cg2, ret) ∧
      cg2.clear_res = cg1.clear_res ∧ cg2.error_str = cg1.error_str ∧
      ∀ k, find <+: (res.takeWhile fun b => b != 0).drop k →
        (∀ k2, k2 < k → ¬ find <+: (res.takeWhile fun b => b != 0).drop k2) →
        (∀ i, i < cg.res_len → k + find.length ≤ i → res[i]? ≠ some 60) →
        ret = -EBADMSG ∧ cg2.error_str = .literal "Cannot find translated result" := by
  have hnul2 : (res.take (cg.res_len + 1))[cg.res_len]? = some 0 := by
    rw [List.getElem?_take_of_lt (Nat.lt_succ_self _)]
    exact hnul
  have htw := takeWhile_take res cg.res_len hnul
  cases hf : find_sub find (res.takeWhile fun b => b != 0) with
  | none =>
    refine ⟨_, _, _,
      parse_response_no_marker fresh { cg with res := some (res.take (cg.res_len + 1)) } _ rfl
        hnul2 (by rw [htw]; exact hf),
      parse_response_no_marker fresh cg res hres hnul hf, rfl, rfl, fun _ _ _ _ => ⟨rfl, rfl⟩⟩
  | some k =>
    obtain ⟨o1, o2⟩ := find_sub_some find _ k hf
    obtain ⟨hm, hscan⟩ := parse_response_scan cg res k hnul hf
    have hdrop : (res.take (cg.res_len + 1)).drop (k + find.length) =
        (res.drop (k + find.length)).take (cg.res_len - (k + find.length) + 1) := by
      rw [List.drop_take]
      congr 1
      omega
    have hscan2 : scan_tag cg.res_len ((res.take (cg.res_len + 1)).drop (k + find.length))
        (k + find.length) 0 =
        scan_tag cg.res_len (res.drop (k + find.length)) (k + find.length) 0 := by
      rw [hdrop]
      exact scan_tag_take cg.res_len _ _ 0 hm
    rcases hscan with ⟨e, g1, g2, g3, g4, g5⟩ | ⟨g1, g2⟩
    · have htake : (res.take (cg.res_len + 1)).take e = res.take e := by
        rw [List.take_take, Nat.min_eq_left (by omega)]
      have hfail : ∀ k3, find <+: (res.takeWhile fun b => b != 0).drop k3 →
          (∀ k2, k2 < k3 → ¬ find <+: (res.takeWhile fun b => b != 0).drop k2) →
          (∀ i, i < cg.res_len → k3 + find.length ≤ i → res[i]? ≠ some 60) → False := by
        intro k3 p1 p2 p3
        have : k3 = k := by
          rcases Nat.lt_trichotomy k3 k with h | h | h
          · exact absurd p1 (o2 k3 h)
          · exact h
          · exact absurd o1 (p2 k h)
        subst this
        exact absurd g3 (p3 e g2 g1)
      cases fresh with
      | none =>
        refine ⟨_, _, _,
          parse_response_tag_nomem { cg with res := some (res.take (cg.res_len + 1)) } _ k e
            rfl hnul2 (by rw [htw]; exact hf) g1 g2 (by rw [hscan2]; exact g5),
          parse_response_tag_nomem cg res k e hres hnul hf g1 g2 g5, rfl, rfl,
          fun k3 p1 p2 p3 => (hfail k3 p1 p2 p3).elim⟩
      | some f =>
        refine ⟨_, _, _,
          parse_response_tag f { cg with res := some (res.take (cg.res_len + 1)) } _ k e
            rfl hnul2 (by rw [htw]; exact hf) g1 g2 hsz (by rw [hscan2]; exact g5),
          parse_response_tag f cg res k e hres hnul hf g1 g2 hsz g5, ?_, rfl,
          fun k3 p1 p2 p3 => (hfail k3 p1 p2 p3).elim⟩
        show Ptr.block _ = Ptr.block _
        rw [htake]
    · refine ⟨_, _, _,
        parse_response_no_tag fresh { cg with res := some (res.take (cg.res_len + 1)) } _ k
          rfl hnul2 (by rw [htw]; exact hf) (by rw [hscan2]; exact g2),
        parse_response_no_tag fresh cg res k hres hnul hf g2, rfl, rfl,
        fun _ _ _ _ => ⟨rfl, rfl⟩⟩

/-- Witness of C16: the response `<div class="result-container">HELLO` of 35
    bytes, with a NUL at index 35 and a stale `<` at index 36: the scan stops at
    index 35 and the call fails. -/
theorem parse_response_reads_within_witness :
    (session_with_response (lit "<div class=\"result-container\">HELLO")).res =
      some (lit "<div class=\"result-container\">HELLO" ++ [0, 60, 47, 62]) ∧
    (session_with_response (lit "<div class=\"result-container\">HELLO")).res_len = 35 ∧
    (lit "<div class=\"result-container\">HELLO" ++ [0, 60, 47, 62])[35]? = some 0 ∧
    (lit "<div class=\"result-container\">HELLO" ++ [0, 60, 47, 62])[36]? = some 60 ∧
    parse_response (some fun _ => 7)
        (session_with_response (lit "<div class=\"result-container\">HELLO")) =
      some ({ session_with_response (lit "<div class=\"result-container\">HELLO") with
                error_str := .literal "Cannot find translated result" }, -EBADMSG) ∧
    ∃ cg1 cg2 ret,
      parse_response (some fun _ => 7)
          { session_with_response (lit "<div class=\"result-container\">HELLO") with
            res := some ((lit "<div class=\"result-container\">HELLO" ++ [0, 60, 47, 62]).take
              ((session_with_response
                (lit "<div class=\"result-container\">HELLO")).res_len + 1)) } =
        some (cg1, ret) ∧
      parse_response (some fun _ => 7)
          (session_with_response (lit "<div class=\"result-container\">HELLO")) =
        some (cg2, ret) ∧
      cg2.clear_res = cg1.clear_res ∧ cg2.error_str = cg1.error_str :=
  ⟨rfl, by decide, by decide, by decide, by decide,
    match parse_response_reads_within (some fun _ => 7)
      (session_with_response (lit "<div class=\"result-container\">HELLO"))
      (lit "<div class=\"result-container\">HELLO" ++ [0, 60, 47, 62]) rfl (by decide)
      (by decide) with
    | ⟨cg1, cg2, ret, h1, h2, h3, h4, _⟩ => ⟨cg1, cg2, ret, h1, h2, h3, h4⟩⟩

/-! ## The execution: bytes left by an earlier execution -/

/-- C19 (the code departs from the claim): two sessions run the same execution,
    a successful transfer with a body of zero bytes, and differ only in the
    bytes an earlier, failed execution left in the response block after index
    0 (`x<div class="result-container"><b>` in one, `x` in the other).  The
    first execution extracts an empty result from the stale bytes and returns 0,
    replacing the result `HELLO`; the second returns `-EBADMSG` and keeps
    `HELLO`. -/
theorem cgtr_execute_reads_stale_bytes :
    (cgtr_execute env_fails_after_marker hello_session).map (fun r => r.2) =
      some (-EBADMSG) ∧
    (cgtr_execute env_fails_after_x hello_session).map (fun r => r.2) = some (-EBADMSG) ∧
    (((cgtr_execute env_fails_after_marker hello_session).bind fun r => r.1.res).bind
        fun b => b[0]?) =
      (((cgtr_execute env_fails_after_x hello_session).bind fun r => r.1.res).bind
        fun b => b[0]?) ∧
    ((cgtr_execute env_fails_after_marker hello_session).bind fun r =>
        cgtr_execute env_empty_body r.1).map (fun r => (r.2, cgtr_get_result r.1)) =
      some (0, .block [0]) ∧
    ((cgtr_execute env_fails_after_x hello_session).bind fun r =>
        cgtr_execute env_empty_body r.1).map (fun r => (r.2, cgtr_get_result r.1)) =
      some (-EBADMSG, .block (lit "HELLO" ++ [0])) := by
  decide

end CGTranslate
